import Mathlib

/-!
Verification of a Byte Pair Encoding (BPE) subword tokenizer.

The Python source (`src/utils/bpe.py`) is shallowly embedded here:
strings become `List Char`, Python `dict`/`Counter`/`defaultdict`
(which preserve insertion order) become insertion-ordered association
lists, and every operation of the `BPE` class is translated into an
executable Lean function.
-/

set_option maxHeartbeats 1000000

namespace BPEModel

/-- A symbol (string fragment): Python `str` as a list of characters. -/
abbrev Sym : Type := List Char

/-- An ordered pair of symbols, as used for merge rules and pair statistics. -/
abbrev Pair : Type := Sym × Sym

/-- A vocabulary: insertion-ordered map from word-representation to frequency. -/
abbrev Vocab : Type := List (Sym × Nat)

/-- The whitespace characters recognised by Python `str.split()` (ASCII part). -/
def isWS (c : Char) : Bool :=
  c = ' ' || c = '\t' || c = '\n' || c = '\r' || c = '\x0b' || c = '\x0c'

/-- The end-of-word sentinel text of the source. -/
def sentinel : Sym := ['<', '/', 'w', '>']

/-- Python `' '.join`: join strings with single-space separators. -/
def joinSp : List Sym → List Char
  | [] => []
  | [s] => s
  | s :: t :: r => s ++ ' ' :: joinSp (t :: r)

/-- Accumulator-based splitter behind `pySplit`: collects the current
(non-whitespace) run in reversed form in `acc`. -/
def splitAux : List Char → List Char → List Sym
  | [], acc => if acc = [] then [] else [acc.reverse]
  | c :: rest, acc =>
      if isWS c then
        (if acc = [] then splitAux rest [] else acc.reverse :: splitAux rest [])
      else splitAux rest (c :: acc)

/-- Python `str.split()` with no argument: split on whitespace runs,
discarding empty pieces (so leading/trailing whitespace is ignored). -/
def pySplit (s : List Char) : List Sym := splitAux s []

/-- Boolean test for `pat` being a prefix of `s`. -/
def isPre : List Char → List Char → Bool
  | [], _ => true
  | _ :: _, [] => false
  | p :: ps, c :: cs => p = c && isPre ps cs

/-- Fuel-driven core of Python `str.replace`: replace every left-to-right,
non-overlapping occurrence of `pat` by `repl`.  The fuel is only there to
make the recursion structural; `s.length` is always enough fuel. -/
def replFuel (pat repl : List Char) : Nat → List Char → List Char
  | 0, s => s
  | _ + 1, [] => []
  | fuel + 1, c :: rest =>
      if pat ≠ [] ∧ isPre pat (c :: rest) then
        repl ++ replFuel pat repl fuel ((c :: rest).drop pat.length)
      else c :: replFuel pat repl fuel rest

/-- Python `str.replace(pat, repl)` (for nonempty `pat`, which is the only
way the source uses it: the pattern is always a space-joined bigram). -/
def pyReplace (pat repl s : List Char) : List Char := replFuel pat repl s.length s

/-- The list of adjacent symbol pairs of a symbol sequence
(`[(symbols[i], symbols[i+1]) for i in range(len(symbols)-1)]`). -/
def adjPairs (syms : List Sym) : List Pair := syms.zip syms.tail

/-- `d[k] += f` on an insertion-ordered association map with default 0
(Python `defaultdict(int)` / `Counter` update). -/
def bumpA {α : Type} [DecidableEq α] : List (α × Nat) → α → Nat → List (α × Nat)
  | [], k, f => [(k, f)]
  | e :: rest, k, f =>
      if e.1 = k then (e.1, e.2 + f) :: rest else e :: bumpA rest k f

/-- `d[k] = f` on an insertion-ordered association map (Python dict assignment:
an existing key keeps its position, a new key is appended). -/
def setk {α : Type} [DecidableEq α] : List (α × Nat) → α → Nat → List (α × Nat)
  | [], k, f => [(k, f)]
  | e :: rest, k, f =>
      if e.1 = k then (k, f) :: rest else e :: setk rest k f

/-- Lookup with default 0 in an association map. -/
def lookupD {α : Type} [DecidableEq α] : List (α × Nat) → α → Nat
  | [], _ => 0
  | e :: rest, k => if e.1 = k then e.2 else lookupD rest k

/-- Python `Counter(xs)`: count occurrences, keys in first-occurrence order. -/
def counterOf {α : Type} [DecidableEq α] (xs : List α) : List (α × Nat) :=
  xs.foldl (fun m k => bumpA m k 1) []

/-- `BPE.get_stats`: for every vocabulary entry, walk its whitespace-split
symbol sequence and add the entry's frequency to each adjacent pair's total. -/
def get_stats (v : Vocab) : List (Pair × Nat) :=
  v.foldl (fun st e => (adjPairs (pySplit e.1)).foldl (fun st' pr => bumpA st' pr e.2) st) []

/-- One comparison step of Python `max`: the current best is replaced only by
a strictly larger value, so on ties the earlier entry is kept. -/
def maxStep (b e' : Pair × Nat) : Pair × Nat := if b.2 < e'.2 then e' else b

/-- Python `max(xs, key=value)` over the entries of an insertion-ordered map:
scan in order, keeping the current entry unless a strictly larger value shows
up, so the first maximiser wins.  Returns `none` on the empty map. -/
def pyMax : List (Pair × Nat) → Option (Pair × Nat)
  | [] => none
  | e :: rest => some (rest.foldl maxStep e)

/-- The space-joined bigram text `' '.join(pair)` of a pair. -/
def bigram (p : Pair) : List Char := p.1 ++ ' ' :: p.2

/-- `BPE.merge_vocab`: rewrite every key by `str.replace` of the bigram text
with the concatenated pair, building a fresh dict in iteration order. -/
def merge_vocab (p : Pair) (v : Vocab) : Vocab :=
  v.foldl (fun nv e => setk nv (pyReplace (bigram p) (p.1 ++ p.2) e.1) e.2) []

/-- One iteration of the training loop body: compute statistics, stop when no
pairs exist, otherwise pick the best pair and rewrite the vocabulary. -/
def fitStep (v : Vocab) : Option (Pair × Vocab) :=
  match pyMax (get_stats v) with
  | none => none
  | some e => some (e.1, merge_vocab e.1 v)

/-- The training loop of `BPE.fit`: at most `n` merge iterations, appending
each chosen pair to the accumulated merge-rule list. -/
def fitLoop : Nat → Vocab → List Pair → List Pair
  | 0, _, ms => ms
  | n + 1, v, ms =>
      match fitStep v with
      | none => ms
      | some bv => fitLoop n bv.2 (ms ++ [bv.1])

/-- The initial word-representation key: `' '.join(word) + ' </w>'`. -/
def initKey (w : List Char) : List Char :=
  joinSp (w.map (fun c => [c])) ++ ' ' :: sentinel

/-- The initial vocabulary of `BPE.fit`: a `Counter` over the keys. -/
def initVocab (corpus : List (List Char)) : Vocab :=
  counterOf (corpus.map initKey)

/-- The engine state: configuration `num_merges` plus learned `bpe_merges`. -/
structure BPE where
  num_merges : Nat
  bpe_merges : List Pair
deriving DecidableEq

/-- `BPE.__init__(num_merges)`: empty merge-rule sequence. -/
def mkBPE (m : Nat) : BPE := { num_merges := m, bpe_merges := [] }

/-- `BPE.fit(corpus)`: run the training loop, appending onto whatever
`bpe_merges` the engine already holds. -/
def fit (e : BPE) (corpus : List (List Char)) : BPE :=
  { e with bpe_merges := fitLoop e.num_merges (initVocab corpus) e.bpe_merges }

/-- The merge rules learned by a freshly constructed engine. -/
def fitMerges (m : Nat) (corpus : List (List Char)) : List Pair :=
  (fit (mkBPE m) corpus).bpe_merges

/-- The vocabulary of `fit` after `n` merge iterations on `corpus`. -/
def vocabAfter : Nat → Vocab → Vocab
  | 0, v => v
  | n + 1, v =>
      match fitStep v with
      | none => v
      | some bv => vocabAfter n bv.2

/-- `list(word) + ['</w>']`: the initial symbol sequence of `encode_word`. -/
def toSyms (w : List Char) : List Sym := w.map (fun c => [c]) ++ [sentinel]

/-- The inner while-loop of `encode_word`: replace every left-to-right,
non-overlapping adjacent occurrence of the chosen pair by its concatenation,
skipping over each newly created symbol. -/
def applyMerge (p : Pair) : List Sym → List Sym
  | a :: b :: rest =>
      if a = p.1 ∧ b = p.2 then (a ++ b) :: applyMerge p rest
      else a :: applyMerge p (b :: rest)
  | l => l

/-- The outer while-loop of `encode_word`, fuel-driven (the symbol list
shrinks at every iteration, so `syms.length` fuel always suffices): compute
the adjacent pairs, stop if none of them is a learned rule, otherwise apply
the first rule of `bpe_merges` that matches some present pair. -/
def encodeLoop (merges : List Pair) : Nat → List Sym → List Sym
  | 0, syms => syms
  | fuel + 1, syms =>
      if ((adjPairs syms).filter (fun q => decide (q ∈ merges))).isEmpty then syms
      else
        match merges.find? (fun q => decide (q ∈ adjPairs syms)) with
        | none => syms
        | some p => encodeLoop merges fuel (applyMerge p syms)

/-- The encode loop started with its canonical (always sufficient) fuel. -/
def runLoop (merges : List Pair) (syms : List Sym) : List Sym :=
  encodeLoop merges syms.length syms

/-- `BPE.encode_word` for a given merge-rule list: run the loop on the
character symbols plus sentinel, then strip a trailing sentinel symbol. -/
def encodeWordM (merges : List Pair) (w : List Char) : List Sym :=
  let res := runLoop merges (toSyms w)
  if res.getLast? = some sentinel then res.dropLast else res

/-- `BPE.encode(text)`: split the text on whitespace and encode each word.
The state is returned unchanged (the method only reads `bpe_merges`). -/
def encode (e : BPE) (t : List Char) : BPE × List (List Sym) :=
  (e, (pySplit t).map (encodeWordM e.bpe_merges))

/-- Boolean suffix test. -/
def isSuf (pat s : List Char) : Bool := isPre pat.reverse s.reverse

/-- `BPE.decode_word(tokens)`: concatenate the tokens and strip one trailing
occurrence of the sentinel text, if present. -/
def decode_word (tokens : List Sym) : List Char :=
  let j := tokens.flatten
  if isSuf sentinel j then j.take (j.length - 4) else j

/-- `BPE.decode(encoded)`: decode each encoded word.  The state is returned
unchanged (the method does not touch `bpe_merges`). -/
def decode (e : BPE) (xs : List (List Sym)) : BPE × List (List Char) :=
  (e, xs.map decode_word)

/-! ### Invariants, spec-side notions and proof-device definitions -/

/-- The invariant "the last symbol ends in the sentinel text". -/
def LastSent (l : List Sym) : Prop := ∃ s, l.getLast? = some s ∧ sentinel <:+ s

/-- Modelled from the spec: the rule that appears earliest in the learned
merge-rule sequence among all rules matching some currently present pair
(regardless of where the pair sits in the word). -/
def earliestRule (merges prs : List Pair) : Option Pair :=
  (merges.filter (fun q => decide (q ∈ prs))).head?

/-- Modelled from the spec: scan the word left to right and apply the single
chosen merge at every occurrence found during that scan, without re-scanning
a newly created merged symbol in the same pass. -/
def scanApply (a b : Sym) (acc : List Sym) : List Sym → List Sym
  | [] => acc.reverse
  | [x] => (x :: acc).reverse
  | x :: y :: r =>
      if x = a ∧ y = b then scanApply a b ((a ++ b) :: acc) r
      else scanApply a b (x :: acc) (y :: r)

/-- The number of occurrences of `a` in a list. -/
def countOcc {α : Type} [DecidableEq α] : List α → α → Nat
  | [], _ => 0
  | x :: l, a => countOcc l a + if x = a then 1 else 0

/-- The spec-side aggregate frequency of a pair over a vocabulary: the sum,
over every vocabulary entry and every adjacent occurrence of the pair within
that entry's symbol sequence, of that entry's frequency (once per
occurrence). -/
def aggregate (v : Vocab) (q : Pair) : Nat :=
  (v.map (fun e => e.2 * countOcc (adjPairs (pySplit e.1)) q)).sum

/-- All adjacent-pair occurrences of a vocabulary, in the scan order of
`get_stats`: entries in insertion order, each symbol sequence left to right. -/
def occList (v : Vocab) : List Pair :=
  (v.map (fun e => adjPairs (pySplit e.1))).flatten

/-- Boolean list membership (kept instance-free for stable rewriting). -/
def memB {α : Type} [DecidableEq α] (a : α) : List α → Bool
  | [] => false
  | x :: l => decide (x = a) || memB a l

/-- First-occurrence deduplication: the insertion order a Python dict ends up
with when fed keys in the given order. -/
def fdedup {α : Type} [DecidableEq α] (xs : List α) : List α :=
  xs.foldl (fun acc a => if memB a acc then acc else acc ++ [a]) []

/-- Absence of whitespace characters. -/
def wsFree (s : List Char) : Prop := ∀ c ∈ s, isWS c = false

/-- Drop all whitespace characters (the non-space content of a key). -/
def despace (k : List Char) : List Char := k.filter (fun c => !isWS c)

instance wsFreeDec (s : List Char) : Decidable (wsFree s) :=
  decidable_of_iff (∀ c ∈ s, isWS c = false) Iff.rfl

/-- Symbol-level mirror of `str.replace` of the bigram text on a proper
space-join (proof device for reasoning about `merge_vocab`): when the pair
text matches with its space on a separator — `a` a suffix of the left symbol
and `b` a prefix of the right one — the space is deleted, gluing symbols
together; the remainder of the right symbol is re-scanned. -/
def strMerge (a b : Sym) : List Sym → List Sym
  | [] => []
  | [x] => [x]
  | x :: y :: rest =>
      if a <:+ x ∧ b <+: y then
        match hy : y.drop b.length with
        | [] => (x ++ b) :: strMerge a b rest
        | y0 :: ys =>
            match strMerge a b ((y0 :: ys) :: rest) with
            | [] => [x ++ b]
            | z :: l => (x ++ b ++ z) :: l
      else x :: strMerge a b (y :: rest)
termination_by syms => (syms.map List.length).sum + syms.length
decreasing_by
  · simp only [List.map_cons, List.sum_cons, List.length_cons]
    omega
  · have hlen := congrArg List.length hy
    rw [List.length_drop] at hlen
    simp only [List.length_cons] at hlen
    simp only [List.map_cons, List.sum_cons, List.length_cons]
    omega
  · simp only [List.map_cons, List.sum_cons, List.length_cons]
    omega

/-- All characters appearing in the corpus. -/
def corpusChars (corpus : List (List Char)) : List Char := corpus.flatten

/-- A well-formed vocabulary key: a proper single-space join of nonempty,
whitespace-free symbols. -/
def GoodKey (k : List Char) : Prop :=
  pySplit k ≠ [] ∧ (∀ s ∈ pySplit k, s ≠ [] ∧ wsFree s) ∧ joinSp (pySplit k) = k

/-- Every single-character symbol of the key is a corpus character. -/
def SymOK (cc : List Char) (k : List Char) : Prop :=
  ∀ s ∈ pySplit k, s.length = 1 → ∀ c ∈ s, c ∈ cc

/-- The invariant `fit` maintains on its vocabulary (for corpora of nonempty
whitespace-free words): every key is well formed with corpus-only
single-character symbols, and the keys' non-space contents are pairwise
distinct. -/
def GoodVocab (cc : List Char) (v : Vocab) : Prop :=
  (∀ e ∈ v, GoodKey e.1 ∧ SymOK cc e.1) ∧ (v.map (fun e => despace e.1)).Nodup

/-- Total character length of all keys: the termination measure of training. -/
def keyLenSum (v : Vocab) : Nat := (v.map (fun e => e.1.length)).sum

/-- Fuel-driven count of how many merge iterations `fit` can perform before
the pair statistics are exhausted. -/
def stepsFuel : Nat → Vocab → Nat
  | 0, _ => 0
  | n + 1, v =>
      match fitStep v with
      | none => 0
      | some bv => stepsFuel n bv.2 + 1

/-- The number of merge iterations possible on `corpus` before pairs are
exhausted (`keyLenSum` fuel always suffices, since the measure strictly
decreases at every iteration). -/
def kOf (corpus : List (List Char)) : Nat :=
  stepsFuel (keyLenSum (initVocab corpus)) (initVocab corpus)

/-- What training guarantees of every learned rule: both components are
nonempty, and a single-character component can only be a corpus character. -/
def RuleOK (cc : List Char) (p : Pair) : Prop :=
  p.1 ≠ [] ∧ p.2 ≠ []
  ∧ (p.1.length = 1 → ∀ c ∈ p.1, c ∈ cc)
  ∧ (p.2.length = 1 → ∀ c ∈ p.2, c ∈ cc)

/-! ### Basic lemmas -/

theorem splitAux_all_ws : ∀ t : List Char, (∀ c ∈ t, isWS c = true) → splitAux t [] = [] := by
  intro t ht
  induction t with
  | nil => rfl
  | cons c rest ih =>
      have hc : isWS c = true := ht c (List.mem_cons_self _ _)
      simp only [splitAux, hc, if_pos rfl, if_true]
      exact ih fun d hd => ht d (List.mem_cons_of_mem _ hd)

theorem fitLoop_append : ∀ (n : Nat) (v : Vocab) (ms : List Pair),
    fitLoop n v ms = ms ++ fitLoop n v [] := by
  intro n
  induction n with
  | zero => intro v ms; simp [fitLoop]
  | succ n ih =>
      intro v ms
      simp only [fitLoop]
      cases h : fitStep v with
      | none => simp
      | some bv =>
          dsimp only
          rw [ih bv.2 (ms ++ [bv.1]), ih bv.2 ([] ++ [bv.1])]
          simp

theorem isPre_iff : ∀ a b : List Char, isPre a b = true ↔ a <+: b := by
  intro a
  induction a with
  | nil => intro b; simp [isPre]
  | cons p ps ih =>
      intro b
      cases b with
      | nil => simp [isPre]
      | cons c cs =>
          simp only [isPre, Bool.and_eq_true, decide_eq_true_eq, List.cons_prefix_cons, ih]

theorem isSuf_iff (pat s : List Char) : isSuf pat s = true ↔ pat <:+ s := by
  rw [isSuf, isPre_iff, List.reverse_prefix]

theorem flatten_map_singleton : ∀ w : List Char, (w.map (fun c => [c])).flatten = w := by
  intro w
  induction w with
  | nil => rfl
  | cons c cs ih => simp [ih]

theorem applyMerge_flatten (p : Pair) : ∀ l : List Sym, (applyMerge p l).flatten = l.flatten := by
  apply applyMerge.induct p (motive := fun l => (applyMerge p l).flatten = l.flatten)
  · intro a b rest h ih
    simp [applyMerge, if_pos h, ih]
  · intro a b rest h ih
    simp [applyMerge, if_neg h, ih]
  · intro l h
    rcases l with _ | ⟨a, _ | ⟨b, rest⟩⟩
    · rfl
    · rfl
    · exact (h a b rest rfl).elim

theorem applyMerge_ne_nil (p : Pair) (l : List Sym) (h : l ≠ []) : applyMerge p l ≠ [] := by
  rcases l with _ | ⟨a, _ | ⟨b, rest⟩⟩
  · exact (h rfl).elim
  · simp [applyMerge]
  · simp only [applyMerge]
    split <;> simp

theorem getLast?_cons_ne {α : Type} (x : α) (l : List α) (h : l ≠ []) :
    (x :: l).getLast? = l.getLast? := by
  cases l with
  | nil => exact (h rfl).elim
  | cons y l' => exact List.getLast?_cons_cons

theorem applyMerge_lastSent (p : Pair) : ∀ l : List Sym, LastSent l → LastSent (applyMerge p l) := by
  apply applyMerge.induct p (motive := fun l => LastSent l → LastSent (applyMerge p l))
  · intro a b rest h ih hl
    simp only [applyMerge, if_pos h]
    cases hr : rest with
    | nil =>
        subst hr
        obtain ⟨s, hs, hsuf⟩ := hl
        simp only [List.getLast?_cons_cons, List.getLast?_singleton, Option.some.injEq] at hs
        subst hs
        exact ⟨a ++ b, by simp [applyMerge], hsuf.trans (List.suffix_append a b)⟩
    | cons y rest' =>
        subst hr
        have hne : applyMerge p (y :: rest') ≠ [] := applyMerge_ne_nil p _ (by simp)
        obtain ⟨s, hs, hsuf⟩ := ih (by
          obtain ⟨s, hs, hsuf⟩ := hl
          refine ⟨s, ?_, hsuf⟩
          simpa [List.getLast?_cons_cons] using hs)
        exact ⟨s, by rw [getLast?_cons_ne _ _ hne]; exact hs, hsuf⟩
  · intro a b rest h ih hl
    simp only [applyMerge, if_neg h]
    have hne : applyMerge p (b :: rest) ≠ [] := applyMerge_ne_nil p _ (by simp)
    obtain ⟨s, hs, hsuf⟩ := ih (by
      obtain ⟨s, hs, hsuf⟩ := hl
      refine ⟨s, ?_, hsuf⟩
      simpa [List.getLast?_cons_cons] using hs)
    exact ⟨s, by rw [getLast?_cons_ne _ _ hne]; exact hs, hsuf⟩
  · intro l h
    rcases l with _ | ⟨a, _ | ⟨b, rest⟩⟩
    · exact id
    · exact id
    · exact (h a b rest rfl).elim

theorem encodeLoop_pres (merges : List Pair) (P : List Sym → Prop)
    (hstep : ∀ p l, P l → P (applyMerge p l)) :
    ∀ (fuel : Nat) (l : List Sym), P l → P (encodeLoop merges fuel l) := by
  intro fuel
  induction fuel with
  | zero => intro l hl; exact hl
  | succ n ih =>
      intro l hl
      simp only [encodeLoop]
      split
      · exact hl
      · split
        · exact hl
        · exact ih _ (hstep _ _ hl)

theorem roundtrip_word (merges : List Pair) (w : List Char) (h : ¬ (sentinel <:+: w)) :
    decode_word (encodeWordM merges w) = w := by
  have hflat : (runLoop merges (toSyms w)).flatten = w ++ sentinel := by
    have hinit : (toSyms w).flatten = w ++ sentinel := by
      simp [toSyms, flatten_map_singleton]
    exact encodeLoop_pres merges (fun l => l.flatten = w ++ sentinel)
      (fun p l hl => by
        show (applyMerge p l).flatten = w ++ sentinel
        rw [applyMerge_flatten]; exact hl) _ _ hinit
  have hlast : LastSent (runLoop merges (toSyms w)) := by
    refine encodeLoop_pres merges LastSent applyMerge_lastSent _ _ ?_
    exact ⟨sentinel, by simp [toSyms], List.suffix_refl _⟩
  set res := runLoop merges (toSyms w) with hres
  by_cases hc : res.getLast? = some sentinel
  · have hne : res ≠ [] := by
      intro hnil; rw [hnil] at hc; simp at hc
    have hsplit : res.dropLast ++ [sentinel] = res := by
      have := List.dropLast_append_getLast hne
      rwa [show res.getLast hne = sentinel by
        have := List.getLast?_eq_getLast res hne
        rw [this] at hc; exact (Option.some.injEq _ _).mp hc] at this
    have hdflat : res.dropLast.flatten = w := by
      apply @List.append_cancel_right _ _ sentinel _
      have : (res.dropLast ++ [sentinel]).flatten = w ++ sentinel := by rw [hsplit]; exact hflat
      simpa using this
    have hnosuf : ¬ (isSuf sentinel w = true) := by
      intro hs
      exact h ((isSuf_iff sentinel w).mp hs).isInfix
    simp only [encodeWordM, ← hres, if_pos hc, decode_word, hdflat, if_neg hnosuf]
  · have hsuf : isSuf sentinel (res.flatten) = true := by
      rw [isSuf_iff, hflat]
      exact List.suffix_append w sentinel
    have hlen : res.flatten.length - 4 = w.length := by
      rw [hflat]; simp [sentinel]
    simp only [encodeWordM, ← hres, if_neg hc, decode_word, if_pos hsuf, hlen]
    rw [hflat]
    exact List.take_left w sentinel

/-! ### Claims C1, C6, C8, C10 -/

/-- C1: for every corpus, every merge budget, and every text whose
whitespace-delimited words contain no occurrence of the sentinel text,
joining `decode(encode(T))` with single spaces gives `T` with whitespace
runs collapsed to single spaces and outer whitespace removed
(that is, `' '.join(T.split())`). -/
theorem c1_roundtrip (corpus : List (List Char)) (m : Nat) (T : List Char)
    (h : ∀ w ∈ pySplit T, ¬ (sentinel <:+: w)) :
    joinSp (decode (fit (mkBPE m) corpus) (encode (fit (mkBPE m) corpus) T).2).2
      = joinSp (pySplit T) := by
  simp only [decode, encode, List.map_map]
  congr 1
  have : ∀ w ∈ pySplit T,
      (decode_word ∘ encodeWordM (fit (mkBPE m) corpus).bpe_merges) w = id w := by
    intro w hw
    simpa using roundtrip_word (fit (mkBPE m) corpus).bpe_merges w (h w hw)
  rw [List.map_congr_left this, List.map_id]

/-- Witness for C1 on a concrete corpus and a text with irregular whitespace. -/
theorem c1_roundtrip_witness :
    (∀ w ∈ pySplit [' ', 'a', 'b', ' ', ' ', 'a'], ¬ (sentinel <:+: w)) ∧
    joinSp (decode (fit (mkBPE 3) [['a', 'b']])
        (encode (fit (mkBPE 3) [['a', 'b']]) [' ', 'a', 'b', ' ', ' ', 'a']).2).2
      = joinSp (pySplit [' ', 'a', 'b', ' ', ' ', 'a']) :=
  ⟨by decide, c1_roundtrip [['a', 'b']] 3 [' ', 'a', 'b', ' ', ' ', 'a'] (by decide)⟩

/-- C6: two `fit` calls with the identical corpus and identical `max_merges`
on two freshly constructed engine instances produce identical merge-rule
sequences: `fit` is a deterministic function of its inputs. -/
theorem c6_fit_deterministic (m : Nat) (corpus : List (List Char)) (e1 e2 : BPE)
    (h1 : e1 = mkBPE m) (h2 : e2 = mkBPE m) :
    (fit e1 corpus).bpe_merges = (fit e2 corpus).bpe_merges := by
  subst h1; subst h2; rfl

/-- Witness for C6 at a concrete corpus and merge count. -/
theorem c6_fit_deterministic_witness :
    (fit (mkBPE 3) [['a', 'b']] ).bpe_merges = (fit (mkBPE 3) [['a', 'b']]).bpe_merges :=
  c6_fit_deterministic 3 [['a', 'b']] (mkBPE 3) (mkBPE 3) rfl rfl

/-- C8: the merge-rule sequence is empty at construction; `fit` leaves the
previously stored rules in place as a prefix and only appends after them,
and also leaves the configuration untouched; `encode` and `decode` leave the
engine state unchanged. -/
theorem c8_state_monotone :
    (∀ m, (mkBPE m).bpe_merges = []) ∧
    (∀ (e : BPE) (c : List (List Char)),
        e.bpe_merges <+: (fit e c).bpe_merges ∧ (fit e c).num_merges = e.num_merges) ∧
    (∀ (e : BPE) (t : List Char), (encode e t).1 = e) ∧
    (∀ (e : BPE) (xs : List (List Sym)), (decode e xs).1 = e) := by
  refine ⟨fun _ => rfl, fun e c => ⟨?_, rfl⟩, fun _ _ => rfl, fun _ _ => rfl⟩
  exact ⟨fitLoop e.num_merges (initVocab c) [], (fitLoop_append _ _ _).symm⟩

/-- C10: `encode` applied to the empty string or to a string consisting
entirely of whitespace yields zero encoded words. -/
theorem c10_encode_whitespace (e : BPE) (t : List Char)
    (h : ∀ c ∈ t, isWS c = true) : (encode e t).2 = [] := by
  simp only [encode, pySplit, splitAux_all_ws t h, List.map_nil]

/-- Witness for C10 on a concrete whitespace-only input. -/
theorem c10_encode_whitespace_witness :
    (∀ c ∈ [' ', '\t', '\n'], isWS c = true) ∧ (encode (mkBPE 5) [' ', '\t', '\n']).2 = [] :=
  ⟨by decide, c10_encode_whitespace (mkBPE 5) [' ', '\t', '\n'] (by decide)⟩

/-! ### Claim C3: characterisation of the word-encoding loop -/

theorem find?_eq_filter_head? {α : Type} (p : α → Bool) :
    ∀ l : List α, l.find? p = (l.filter p).head? := by
  intro l
  induction l with
  | nil => rfl
  | cons a rest ih =>
      cases h : p a with
      | true =>
          rw [List.find?_cons_of_pos rest h, List.filter_cons_of_pos h, List.head?_cons]
      | false =>
          rw [List.find?_cons_of_neg rest (by simp [h]),
            List.filter_cons_of_neg (by simp [h]), ih]

theorem scanApply_eq (a b : Sym) : ∀ (acc l : List Sym),
    scanApply a b acc l = acc.reverse ++ applyMerge (a, b) l := by
  apply scanApply.induct a b
    (motive := fun acc l => scanApply a b acc l = acc.reverse ++ applyMerge (a, b) l)
  · intro acc
    simp [scanApply, applyMerge]
  · intro acc x
    simp [scanApply, applyMerge]
  · intro acc x y r h ih
    obtain ⟨rfl, rfl⟩ := h
    simp [scanApply, applyMerge, ih]
  · intro acc x y r h ih
    simp only [scanApply, if_neg h, ih, List.reverse_cons]
    have : applyMerge (a, b) (x :: y :: r) = x :: applyMerge (a, b) (y :: r) := by
      simp only [applyMerge, if_neg h]
    rw [this]
    simp

theorem encodeLoop_nil (merges : List Pair) : ∀ n, encodeLoop merges n [] = [] := by
  intro n
  cases n with
  | zero => rfl
  | succ k => simp [encodeLoop, adjPairs]

theorem applyMerge_length_le (p : Pair) : ∀ l : List Sym, (applyMerge p l).length ≤ l.length := by
  apply applyMerge.induct p (motive := fun l => (applyMerge p l).length ≤ l.length)
  · intro a b rest h ih
    simp only [applyMerge, if_pos h, List.length_cons]
    omega
  · intro a b rest h ih
    simp only [applyMerge, if_neg h, List.length_cons]
    simp only [List.length_cons] at ih
    omega
  · intro l h
    rcases l with _ | ⟨a, _ | ⟨b, rest⟩⟩
    · simp [applyMerge]
    · simp [applyMerge]
    · exact (h a b rest rfl).elim

theorem adjPairs_cons_cons (a b : Sym) (rest : List Sym) :
    adjPairs (a :: b :: rest) = (a, b) :: adjPairs (b :: rest) := rfl

theorem applyMerge_length_lt (p : Pair) : ∀ l : List Sym,
    p ∈ adjPairs l → (applyMerge p l).length < l.length := by
  apply applyMerge.induct p (motive := fun l => p ∈ adjPairs l → (applyMerge p l).length < l.length)
  · intro a b rest h _ _
    simp only [applyMerge, if_pos h, List.length_cons]
    have := applyMerge_length_le p rest
    omega
  · intro a b rest h ih hmem
    have hmem' : p ∈ adjPairs (b :: rest) := by
      rcases List.mem_cons.mp (by simpa [adjPairs_cons_cons] using hmem) with h1 | h1
      · exact (h ⟨by rw [h1], by rw [h1]⟩).elim
      · exact h1
    have hlt := ih hmem'
    simp only [applyMerge, if_neg h, List.length_cons]
    simp only [List.length_cons] at hlt
    omega
  · intro l h hmem
    rcases l with _ | ⟨a, _ | ⟨b, rest⟩⟩
    · simp [adjPairs] at hmem
    · simp [adjPairs] at hmem
    · exact (h a b rest rfl).elim

theorem encodeLoop_congr (merges : List Pair) : ∀ (N : Nat) (l : List Sym) (n m : Nat),
    l.length ≤ N → l.length ≤ n → l.length ≤ m →
    encodeLoop merges n l = encodeLoop merges m l := by
  intro N
  induction N with
  | zero =>
      intro l n m hN _ _
      have : l = [] := List.length_eq_zero.mp (Nat.le_zero.mp hN)
      subst this
      rw [encodeLoop_nil, encodeLoop_nil]
  | succ N ih =>
      intro l n m hN hn hm
      rcases l with _ | ⟨s, rest⟩
      · rw [encodeLoop_nil, encodeLoop_nil]
      cases n with
      | zero => simp at hn
      | succ n' =>
          cases m with
          | zero => simp at hm
          | succ m' =>
              simp only [encodeLoop]
              split
              · rfl
              · cases hf : merges.find? (fun q => decide (q ∈ adjPairs (s :: rest))) with
                | none => simp [hf]
                | some p =>
                    have hp : p ∈ adjPairs (s :: rest) := by
                      have := List.find?_some hf
                      exact of_decide_eq_true this
                    have hlt := applyMerge_length_lt p (s :: rest) hp
                    simp only [hf]
                    exact ih (applyMerge p (s :: rest)) n' m'
                      (by omega) (by omega) (by omega)

theorem runLoop_fuel (merges : List Pair) (l : List Sym) (n : Nat) (hn : l.length ≤ n) :
    encodeLoop merges n l = runLoop merges l := by
  unfold runLoop
  exact encodeLoop_congr merges l.length l n l.length (Nat.le_refl _) hn (Nat.le_refl _)

theorem mem_of_head?_some {α : Type} {l : List α} {a : α} (h : l.head? = some a) : a ∈ l := by
  cases l with
  | nil => simp at h
  | cons x t =>
      simp only [List.head?_cons, Option.some.injEq] at h
      subst h
      exact List.mem_cons_self _ _

/-- The stop test of the source loop agrees with the spec-side rule search. -/
theorem earliestRule_none_iff (merges prs : List Pair) :
    earliestRule merges prs = none ↔ (prs.filter (fun q => decide (q ∈ merges))).isEmpty = true := by
  constructor
  · intro h
    rw [List.isEmpty_iff, List.filter_eq_nil_iff]
    intro q hq hqm
    have hfil : merges.filter (fun q => decide (q ∈ prs)) = [] := by
      simpa [earliestRule, List.head?_eq_none_iff] using h
    have := List.filter_eq_nil_iff.mp hfil q (of_decide_eq_true hqm)
    simp at this
    exact this hq
  · intro h
    rw [List.isEmpty_iff, List.filter_eq_nil_iff] at h
    simp only [earliestRule, List.head?_eq_none_iff, List.filter_eq_nil_iff]
    intro q hq hqp
    have := h q (of_decide_eq_true hqp)
    simp at this
    exact this hq

theorem earliestRule_mem {merges prs : List Pair} {p : Pair}
    (h : earliestRule merges prs = some p) : p ∈ prs := by
  have hm := mem_of_head?_some h
  have := List.of_mem_filter hm
  exact of_decide_eq_true this

theorem runLoop_step (merges : List Pair) (syms : List Sym) :
    match earliestRule merges (adjPairs syms) with
    | none => runLoop merges syms = syms
    | some p => runLoop merges syms = runLoop merges (applyMerge p syms) := by
  have hfind : merges.find? (fun q => decide (q ∈ adjPairs syms))
      = earliestRule merges (adjPairs syms) :=
    find?_eq_filter_head? _ merges
  rcases syms with _ | ⟨s, rest⟩
  · have : earliestRule merges (adjPairs ([] : List Sym)) = none := by
      simp [earliestRule, adjPairs, List.filter_eq_nil_iff]
    rw [this]
    rfl
  · show match earliestRule merges (adjPairs (s :: rest)) with
      | none => encodeLoop merges (s :: rest).length (s :: rest) = s :: rest
      | some p => encodeLoop merges (s :: rest).length (s :: rest)
          = runLoop merges (applyMerge p (s :: rest))
    simp only [List.length_cons, encodeLoop]
    by_cases hstop :
        ((adjPairs (s :: rest)).filter (fun q => decide (q ∈ merges))).isEmpty = true
    · rw [(earliestRule_none_iff merges (adjPairs (s :: rest))).mpr hstop]
      simp [hstop]
    · cases hr : earliestRule merges (adjPairs (s :: rest)) with
      | none => rw [(earliestRule_none_iff merges _).mp hr] at hstop; simp at hstop
      | some p =>
          have hp : p ∈ adjPairs (s :: rest) := earliestRule_mem hr
          have hlt := applyMerge_length_lt p (s :: rest) hp
          simp only [hstop, if_neg, Bool.false_eq_true, hfind, hr]
          simp only [List.length_cons] at hlt
          exact runLoop_fuel merges _ _ (by omega)

theorem earliestRule_nil (merges : List Pair) : earliestRule merges (adjPairs []) = none := by
  simp [earliestRule, adjPairs, List.filter_eq_nil_iff]

theorem runLoop_fixpoint (merges : List Pair) : ∀ (N : Nat) (syms : List Sym),
    syms.length ≤ N → earliestRule merges (adjPairs (runLoop merges syms)) = none := by
  intro N
  induction N with
  | zero =>
      intro syms hlen
      have : syms = [] := List.length_eq_zero.mp (Nat.le_zero.mp hlen)
      subst this
      show earliestRule merges (adjPairs (encodeLoop merges _ [])) = none
      rw [encodeLoop_nil]
      exact earliestRule_nil merges
  | succ N ih =>
      intro syms hlen
      have hstep := runLoop_step merges syms
      cases hr : earliestRule merges (adjPairs syms) with
      | none =>
          rw [hr] at hstep
          rw [hstep, hr]
      | some p =>
          rw [hr] at hstep
          rw [hstep]
          have hp : p ∈ adjPairs syms := earliestRule_mem hr
          have hlt := applyMerge_length_lt p syms hp
          exact ih (applyMerge p syms) (by omega)

/-- C3: in every iteration of the word-encoding loop the rule applied is the
one appearing earliest in the learned merge-rule sequence among all rules
matching some currently present adjacent pair (regardless of the pair's
position in the word); that single rule is applied at every left-to-right
non-overlapping occurrence, with newly created symbols not re-scanned within
the same iteration; and the loop repeats until no learned rule matches any
adjacent pair of the result. -/
theorem c3_encode_loop_spec (merges : List Pair) (syms : List Sym) :
    (match earliestRule merges (adjPairs syms) with
     | none => runLoop merges syms = syms
     | some p => runLoop merges syms = runLoop merges (scanApply p.1 p.2 [] syms)) ∧
    earliestRule merges (adjPairs (runLoop merges syms)) = none := by
  constructor
  · have hstep := runLoop_step merges syms
    cases hr : earliestRule merges (adjPairs syms) with
    | none => rw [hr] at hstep; exact hstep
    | some p =>
        rw [hr] at hstep
        show runLoop merges syms = runLoop merges (scanApply p.1 p.2 [] syms)
        rw [scanApply_eq p.1 p.2 [] syms]
        simpa using hstep
  · exact runLoop_fixpoint merges syms.length syms (Nat.le_refl _)

/-! ### Claims C4 and C9: pair statistics and pair selection -/

theorem memB_iff {α : Type} [DecidableEq α] (a : α) :
    ∀ l : List α, memB a l = true ↔ a ∈ l := by
  intro l
  induction l with
  | nil => simp [memB]
  | cons x l ih =>
      simp only [memB, Bool.or_eq_true, decide_eq_true_eq, List.mem_cons, ih]
      constructor
      · rintro (rfl | h)
        · exact Or.inl rfl
        · exact Or.inr h
      · rintro (rfl | h)
        · exact Or.inl rfl
        · exact Or.inr h

theorem lookupD_bumpA {α : Type} [DecidableEq α] :
    ∀ (st : List (α × Nat)) (k : α) (f : Nat) (q : α),
    lookupD (bumpA st k f) q = lookupD st q + if q = k then f else 0 := by
  intro st
  induction st with
  | nil =>
      intro k f q
      by_cases h : k = q
      · simp [bumpA, lookupD, h]
      · have h' : ¬ q = k := fun hq => h hq.symm
        simp [bumpA, lookupD, h, h']
  | cons e rest ih =>
      intro k f q
      by_cases he : e.1 = k
      · simp only [bumpA, if_pos he]
        by_cases heq : e.1 = q
        · have : q = k := heq ▸ he
          simp [lookupD, heq, this]
        · have : ¬ q = k := fun hq => heq (by rw [he, ← hq])
          simp [lookupD, heq, this]
      · simp only [bumpA, if_neg he]
        by_cases heq : e.1 = q
        · have : ¬ q = k := fun hq => he (by rw [heq, hq])
          simp [lookupD, heq, this]
        · simp [lookupD, heq, ih]

theorem lookupD_bumpFold {α : Type} [DecidableEq α] (q : α) :
    ∀ (prs : List α) (st : List (α × Nat)) (f : Nat),
    lookupD (prs.foldl (fun st' pr => bumpA st' pr f) st) q
      = lookupD st q + f * countOcc prs q := by
  intro prs
  induction prs with
  | nil => intro st f; simp [countOcc]
  | cons p prs' ih =>
      intro st f
      simp only [List.foldl_cons, ih, lookupD_bumpA, countOcc]
      by_cases h : q = p
      · subst h
        simp [Nat.mul_add]
        omega
      · have h' : ¬ p = q := fun hp => h hp.symm
        simp [h, h']

theorem lookupD_statsFold (q : Pair) : ∀ (v : Vocab) (st : List (Pair × Nat)),
    lookupD (v.foldl
      (fun st e => (adjPairs (pySplit e.1)).foldl (fun st' pr => bumpA st' pr e.2) st) st) q
      = lookupD st q + aggregate v q := by
  intro v
  induction v with
  | nil => intro st; simp [aggregate]
  | cons e v' ih =>
      intro st
      simp only [List.foldl_cons, ih, lookupD_bumpFold, aggregate, List.map_cons, List.sum_cons]
      rw [Nat.add_assoc]

theorem lookupD_get_stats (v : Vocab) (q : Pair) :
    lookupD (get_stats v) q = aggregate v q := by
  have := lookupD_statsFold q v []
  simpa [get_stats, lookupD] using this

theorem bumpA_keys {α : Type} [DecidableEq α] :
    ∀ (st : List (α × Nat)) (k : α) (f : Nat),
    (bumpA st k f).map Prod.fst =
      if memB k (st.map Prod.fst) then st.map Prod.fst else st.map Prod.fst ++ [k] := by
  intro st
  induction st with
  | nil => intro k f; simp [bumpA, memB]
  | cons e rest ih =>
      intro k f
      by_cases he : e.1 = k
      · simp [bumpA, he, memB]
      · have hne : (decide (e.1 = k)) = false := by simp [he]
        simp only [bumpA, if_neg he, List.map_cons, ih, memB, hne, Bool.false_or]
        by_cases hm : memB k (rest.map Prod.fst) = true
        · simp [hm]
        · simp only [Bool.not_eq_true] at hm
          simp [hm]

theorem bumpA_keys_nodup {α : Type} [DecidableEq α]
    (st : List (α × Nat)) (k : α) (f : Nat) (h : (st.map Prod.fst).Nodup) :
    ((bumpA st k f).map Prod.fst).Nodup := by
  rw [bumpA_keys]
  by_cases hm : memB k (st.map Prod.fst) = true
  · simpa [hm] using h
  · simp only [Bool.not_eq_true] at hm
    rw [if_neg (by simp [hm])]
    refine List.Nodup.append h (List.nodup_singleton k) ?_
    intro a ha hb
    simp only [List.mem_singleton] at hb
    subst hb
    rw [(memB_iff a _).mpr ha] at hm
    cases hm

theorem bumpFold_keys_nodup {α : Type} [DecidableEq α] :
    ∀ (prs : List α) (st : List (α × Nat)) (f : Nat),
    (st.map Prod.fst).Nodup →
    ((prs.foldl (fun st' pr => bumpA st' pr f) st).map Prod.fst).Nodup := by
  intro prs
  induction prs with
  | nil => intro st f h; exact h
  | cons p prs' ih =>
      intro st f h
      simp only [List.foldl_cons]
      exact ih _ f (bumpA_keys_nodup st p f h)

theorem statsFold_keys_nodup : ∀ (v : Vocab) (st : List (Pair × Nat)),
    (st.map Prod.fst).Nodup →
    ((v.foldl
      (fun st e => (adjPairs (pySplit e.1)).foldl (fun st' pr => bumpA st' pr e.2) st) st).map
        Prod.fst).Nodup := by
  intro v
  induction v with
  | nil => intro st h; exact h
  | cons e v' ih =>
      intro st h
      simp only [List.foldl_cons]
      exact ih _ (bumpFold_keys_nodup _ st e.2 h)

theorem get_stats_keys_nodup (v : Vocab) : ((get_stats v).map Prod.fst).Nodup := by
  exact statsFold_keys_nodup v [] (by simp)

theorem lookupD_of_mem {α : Type} [DecidableEq α] :
    ∀ (m : List (α × Nat)), (m.map Prod.fst).Nodup → ∀ e ∈ m, lookupD m e.1 = e.2 := by
  intro m
  induction m with
  | nil => intro _ e he; simp at he
  | cons x rest ih =>
      intro hnd e he
      rw [List.map_cons] at hnd
      obtain ⟨hx, hrest⟩ := List.nodup_cons.mp hnd
      rcases List.mem_cons.mp he with rfl | hmem
      · simp [lookupD]
      · have hne : x.1 ≠ e.1 := by
          intro hxe
          exact hx (hxe ▸ List.mem_map_of_mem Prod.fst hmem)
        simp only [lookupD, if_neg hne]
        exact ih hrest e hmem

theorem lookupD_le_bound {α : Type} [DecidableEq α] :
    ∀ (m : List (α × Nat)) (B : Nat), (∀ e ∈ m, e.2 ≤ B) → ∀ q, lookupD m q ≤ B := by
  intro m
  induction m with
  | nil => intro B _ q; simp [lookupD]
  | cons x rest ih =>
      intro B hB q
      by_cases h : x.1 = q
      · simp only [lookupD, if_pos h]
        exact hB x (List.mem_cons_self _ _)
      · simp only [lookupD, if_neg h]
        exact ih B (fun e he => hB e (List.mem_cons_of_mem _ he)) q

theorem bumpFold_keys {α : Type} [DecidableEq α] :
    ∀ (prs : List α) (st : List (α × Nat)) (f : Nat),
    (prs.foldl (fun st' pr => bumpA st' pr f) st).map Prod.fst
      = prs.foldl (fun acc a => if memB a acc then acc else acc ++ [a]) (st.map Prod.fst) := by
  intro prs
  induction prs with
  | nil => intro st f; rfl
  | cons p prs' ih =>
      intro st f
      simp only [List.foldl_cons, ih, bumpA_keys]

theorem statsFold_keys : ∀ (v : Vocab) (st : List (Pair × Nat)),
    (v.foldl
      (fun st e => (adjPairs (pySplit e.1)).foldl (fun st' pr => bumpA st' pr e.2) st) st).map
        Prod.fst
      = (occList v).foldl (fun acc a => if memB a acc then acc else acc ++ [a])
          (st.map Prod.fst) := by
  intro v
  induction v with
  | nil => intro st; rfl
  | cons e v' ih =>
      intro st
      have hocc : occList (e :: v') = adjPairs (pySplit e.1) ++ occList v' := by
        simp [occList]
      rw [hocc, List.foldl_append, List.foldl_cons, ih, bumpFold_keys]

/-- The insertion order of the statistics map is the scan order of the
vocabulary's adjacent-pair occurrences, first occurrence first. -/
theorem get_stats_keys (v : Vocab) : (get_stats v).map Prod.fst = fdedup (occList v) := by
  have := statsFold_keys v []
  simpa [get_stats, fdedup] using this

theorem foldl_maxStep_spec : ∀ (rest : List (Pair × Nat)) (init : Pair × Nat),
    (rest.foldl maxStep init = init ∧ ∀ e ∈ rest, e.2 ≤ init.2)
    ∨ (∃ i, ∃ hv : i < rest.length,
        rest.get ⟨i, hv⟩ = rest.foldl maxStep init
        ∧ init.2 < (rest.foldl maxStep init).2
        ∧ (∀ j (hj : j < i), (rest.get ⟨j, Nat.lt_trans hj hv⟩).2
            < (rest.foldl maxStep init).2)
        ∧ (∀ e ∈ rest, e.2 ≤ (rest.foldl maxStep init).2)) := by
  intro rest
  induction rest with
  | nil => intro init; exact Or.inl ⟨rfl, by simp⟩
  | cons e rest' ih =>
      intro init
      rw [List.foldl_cons]
      by_cases hlt : init.2 < e.2
      · have hstep : maxStep init e = e := by simp [maxStep, hlt]
        rw [hstep]
        rcases ih e with ⟨hr, hall⟩ | ⟨i, hv, hget, hgt, hearly, hall⟩
        · refine Or.inr ⟨0, by simp, ?_, ?_, ?_, ?_⟩
          · exact hr.symm
          · rw [hr]; exact hlt
          · intro j hj; omega
          · intro e' he'
            rw [hr]
            rcases List.mem_cons.mp he' with rfl | hm
            · exact Nat.le_refl _
            · exact hall e' hm
        · refine Or.inr ⟨i + 1, by simpa using Nat.succ_lt_succ hv, ?_, ?_, ?_, ?_⟩
          · exact hget
          · exact Nat.lt_trans hlt hgt
          · intro j hj
            cases j with
            | zero => exact hgt
            | succ j' => exact hearly j' (by omega)
          · intro e' he'
            rcases List.mem_cons.mp he' with rfl | hm
            · exact Nat.le_of_lt hgt
            · exact hall e' hm
      · have hstep : maxStep init e = init := by simp [maxStep, hlt]
        rw [hstep]
        have hle : e.2 ≤ init.2 := Nat.le_of_not_lt hlt
        rcases ih init with ⟨hr, hall⟩ | ⟨i, hv, hget, hgt, hearly, hall⟩
        · refine Or.inl ⟨hr, ?_⟩
          intro e' he'
          rcases List.mem_cons.mp he' with rfl | hm
          · exact hle
          · exact hall e' hm
        · refine Or.inr ⟨i + 1, by simpa using Nat.succ_lt_succ hv, ?_, ?_, ?_, ?_⟩
          · exact hget
          · exact hgt
          · intro j hj
            cases j with
            | zero => exact Nat.lt_of_le_of_lt hle hgt
            | succ j' => exact hearly j' (by omega)
          · intro e' he'
            rcases List.mem_cons.mp he' with rfl | hm
            · exact Nat.le_of_lt (Nat.lt_of_le_of_lt hle hgt)
            · exact hall e' hm

theorem pyMax_spec (l : List (Pair × Nat)) (r : Pair × Nat) (h : pyMax l = some r) :
    r ∈ l ∧ (∀ e ∈ l, e.2 ≤ r.2) ∧
    ∃ i, ∃ hv : i < l.length, l.get ⟨i, hv⟩ = r ∧
      ∀ j (hj : j < i), (l.get ⟨j, Nat.lt_trans hj hv⟩).2 < r.2 := by
  cases l with
  | nil => simp [pyMax] at h
  | cons e rest =>
      simp only [pyMax, Option.some.injEq] at h
      subst h
      rcases foldl_maxStep_spec rest e with ⟨hr, hall⟩ | ⟨i, hv, hget, hgt, hearly, hall⟩
      · rw [hr]
        refine ⟨List.mem_cons_self _ _, ?_, 0, by simp, rfl, ?_⟩
        · intro e' he'
          rcases List.mem_cons.mp he' with rfl | hm
          · exact Nat.le_refl _
          · exact hall e' hm
        · intro j hj; omega
      · refine ⟨?_, ?_, i + 1, by simpa using Nat.succ_lt_succ hv, ?_, ?_⟩
        · exact List.mem_cons_of_mem e (by rw [← hget]; exact List.get_mem rest i hv)
        · intro e' he'
          rcases List.mem_cons.mp he' with rfl | hm
          · exact Nat.le_of_lt hgt
          · exact hall e' hm
        · exact hget
        · intro j hj
          cases j with
          | zero => exact hgt
          | succ j' => exact hearly j' (by omega)

/-- C4: in every merge iteration of `fit`, the chosen pair has maximal
aggregate frequency over the current vocabulary, the aggregate being the sum
of entry frequencies over every adjacent occurrence (once per occurrence,
not once per entry). -/
theorem c4_best_pair_maximal (v : Vocab) (b : Pair) (v' : Vocab)
    (h : fitStep v = some (b, v')) (q : Pair) :
    aggregate v q ≤ aggregate v b := by
  unfold fitStep at h
  cases hm : pyMax (get_stats v) with
  | none => rw [hm] at h; exact absurd h (by simp)
  | some r =>
      rw [hm] at h
      simp only [Option.some.injEq, Prod.mk.injEq] at h
      obtain ⟨hb, -⟩ := h
      obtain ⟨hmem, hall, -⟩ := pyMax_spec (get_stats v) r hm
      have h1 : aggregate v b = r.2 := by
        rw [← hb, ← lookupD_get_stats]
        exact lookupD_of_mem (get_stats v) (get_stats_keys_nodup v) r hmem
      have h2 : aggregate v q ≤ r.2 := by
        rw [← lookupD_get_stats]
        exact lookupD_le_bound _ r.2 hall q
      rw [h1]
      exact h2

/-- Witness for C4 on the corpus `["ab"]`: the first iteration picks
`('a','b')`, whose aggregate dominates for example `('b','</w>')`. -/
theorem c4_best_pair_maximal_witness :
    fitStep (initVocab [['a', 'b']])
        = some (((['a'], ['b']) : Pair), merge_vocab (['a'], ['b']) (initVocab [['a', 'b']])) ∧
    aggregate (initVocab [['a', 'b']]) (['b'], sentinel)
      ≤ aggregate (initVocab [['a', 'b']]) (['a'], ['b']) :=
  ⟨by decide,
    c4_best_pair_maximal (initVocab [['a', 'b']]) (['a'], ['b'])
      (merge_vocab (['a'], ['b']) (initVocab [['a', 'b']])) (by decide) (['b'], sentinel)⟩

/-- C9: the selected pair is the first-inserted key of the statistics map
among the tied maximal pairs: the statistics map's insertion order is the
scan order (vocabulary entries in insertion order, each symbol sequence left
to right, first occurrence first), and the selected pair sits at a position
whose earlier entries all have strictly smaller totals while no entry
anywhere has a larger total. -/
theorem c9_tie_break (v : Vocab) (b : Pair) (v' : Vocab)
    (h : fitStep v = some (b, v')) :
    ((get_stats v).map Prod.fst = fdedup (occList v)) ∧
    ∃ i, ∃ hv : i < (get_stats v).length,
      ((get_stats v).get ⟨i, hv⟩).1 = b ∧
      (∀ j (hj : j < i), ((get_stats v).get ⟨j, Nat.lt_trans hj hv⟩).2
          < ((get_stats v).get ⟨i, hv⟩).2) ∧
      (∀ e ∈ get_stats v, e.2 ≤ ((get_stats v).get ⟨i, hv⟩).2) := by
  refine ⟨get_stats_keys v, ?_⟩
  unfold fitStep at h
  cases hm : pyMax (get_stats v) with
  | none => rw [hm] at h; exact absurd h (by simp)
  | some r =>
      rw [hm] at h
      simp only [Option.some.injEq, Prod.mk.injEq] at h
      obtain ⟨hb, -⟩ := h
      obtain ⟨-, hall, i, hv, hget, hearly⟩ := pyMax_spec (get_stats v) r hm
      refine ⟨i, hv, ?_, ?_, ?_⟩
      · rw [hget, hb]
      · intro j hj
        rw [hget]
        exact hearly j hj
      · intro e he
        rw [hget]
        exact hall e he

/-- Witness for C9 on the tie corpus `["ca","ab","cab"]`: in the first
iteration the pairs `('c','a')`, `('a','b')` and `('b','</w>')` all have
aggregate 2, and the first-inserted `('c','a')` is selected. -/
theorem c9_tie_break_witness :
    fitStep (initVocab [['c', 'a'], ['a', 'b'], ['c', 'a', 'b']])
        = some (((['c'], ['a']) : Pair),
            merge_vocab (['c'], ['a']) (initVocab [['c', 'a'], ['a', 'b'], ['c', 'a', 'b']])) ∧
    (((get_stats (initVocab [['c', 'a'], ['a', 'b'], ['c', 'a', 'b']])).map Prod.fst
        = fdedup (occList (initVocab [['c', 'a'], ['a', 'b'], ['c', 'a', 'b']]))) ∧
    ∃ i, ∃ hv : i < (get_stats (initVocab [['c', 'a'], ['a', 'b'], ['c', 'a', 'b']])).length,
      ((get_stats (initVocab [['c', 'a'], ['a', 'b'], ['c', 'a', 'b']])).get ⟨i, hv⟩).1
          = (['c'], ['a']) ∧
      (∀ j (hj : j < i),
        ((get_stats (initVocab [['c', 'a'], ['a', 'b'], ['c', 'a', 'b']])).get
            ⟨j, Nat.lt_trans hj hv⟩).2
          < ((get_stats (initVocab [['c', 'a'], ['a', 'b'], ['c', 'a', 'b']])).get ⟨i, hv⟩).2) ∧
      (∀ e ∈ get_stats (initVocab [['c', 'a'], ['a', 'b'], ['c', 'a', 'b']]),
        e.2 ≤ ((get_stats (initVocab [['c', 'a'], ['a', 'b'], ['c', 'a', 'b']])).get
            ⟨i, hv⟩).2)) :=
  ⟨by decide,
    c9_tie_break (initVocab [['c', 'a'], ['a', 'b'], ['c', 'a', 'b']]) (['c'], ['a'])
      (merge_vocab (['c'], ['a']) (initVocab [['c', 'a'], ['a', 'b'], ['c', 'a', 'b']]))
      (by decide)⟩

/-! ### String-replacement machinery for claims C2, C5, C7 -/

theorem replFuel_nil (pat repl : List Char) : ∀ n, replFuel pat repl n [] = [] := by
  intro n
  cases n <;> rfl

theorem replFuel_congr (pat repl : List Char) :
    ∀ (N n m : Nat) (s : List Char), s.length ≤ N → s.length ≤ n → s.length ≤ m →
    replFuel pat repl n s = replFuel pat repl m s := by
  intro N
  induction N with
  | zero =>
      intro n m s hN _ _
      have hs : s = [] := List.length_eq_zero.mp (Nat.le_zero.mp hN)
      subst hs
      rw [replFuel_nil, replFuel_nil]
  | succ N ih =>
      intro n m s hN hn hm
      cases s with
      | nil => rw [replFuel_nil, replFuel_nil]
      | cons c rest =>
          cases n with
          | zero => simp at hn
          | succ n' =>
              cases m with
              | zero => simp at hm
              | succ m' =>
                  simp only [replFuel]
                  by_cases hc : pat ≠ [] ∧ isPre pat (c :: rest) = true
                  · rw [if_pos hc, if_pos hc]
                    have hplen : 1 ≤ pat.length := by
                      cases hp : pat with
                      | nil => exact absurd hp hc.1
                      | cons x xs => simp
                    have hdrop : ((c :: rest).drop pat.length).length ≤ rest.length := by
                      rw [List.length_drop]
                      simp only [List.length_cons]
                      omega
                    congr 1
                    simp only [List.length_cons] at hN hn hm
                    exact ih n' m' _ (by omega) (by omega) (by omega)
                  · rw [if_neg hc, if_neg hc]
                    simp only [List.length_cons] at hN hn hm
                    rw [ih n' m' rest (by omega) (by omega) (by omega)]

theorem pyReplace_nil (pat repl : List Char) : pyReplace pat repl [] = [] := rfl

theorem pyReplace_cons (pat repl : List Char) (c : Char) (rest : List Char) :
    pyReplace pat repl (c :: rest) =
      if pat ≠ [] ∧ isPre pat (c :: rest) = true then
        repl ++ pyReplace pat repl ((c :: rest).drop pat.length)
      else c :: pyReplace pat repl rest := by
  show replFuel pat repl (c :: rest).length (c :: rest) = _
  simp only [List.length_cons, replFuel]
  by_cases hc : pat ≠ [] ∧ isPre pat (c :: rest) = true
  · rw [if_pos hc, if_pos hc]
    congr 1
    have hplen : 1 ≤ pat.length := by
      cases hp : pat with
      | nil => exact absurd hp hc.1
      | cons x xs => simp
    have hdrop : ((c :: rest).drop pat.length).length ≤ rest.length := by
      rw [List.length_drop]
      simp only [List.length_cons]
      omega
    exact replFuel_congr pat repl rest.length rest.length _ _ hdrop hdrop (Nat.le_refl _)
  · rw [if_neg hc, if_neg hc]
    rfl

theorem wsFree_cons {c : Char} {l : List Char} (h : wsFree (c :: l)) :
    isWS c = false ∧ wsFree l :=
  ⟨h c (List.mem_cons_self _ _), fun d hd => h d (List.mem_cons_of_mem _ hd)⟩

/-- The bigram text `a ++ ' ' ++ b` is a prefix of `x ++ ' ' ++ t` (with `a`,
`x` whitespace-free and `a` nonempty) exactly when `a` is all of `x` and `b`
starts `t`: the single space of the pattern must line up with the separator. -/
theorem pat_prefix_iff (b t : List Char) :
    ∀ (a x : List Char), a ≠ [] → wsFree a → wsFree x →
    ((a ++ ' ' :: b) <+: (x ++ ' ' :: t) ↔ (a = x ∧ b <+: t)) := by
  intro a
  induction a with
  | nil => intro x h; exact absurd rfl h
  | cons ha ta ih =>
      intro x hne hwa hwx
      obtain ⟨hha, hwta⟩ := wsFree_cons hwa
      cases x with
      | nil =>
          simp only [List.cons_append, List.nil_append]
          constructor
          · intro hp
            have h1 := (List.cons_prefix_cons.mp hp).1
            rw [h1] at hha
            simp [isWS] at hha
          · rintro ⟨h1, -⟩
            simp at h1
      | cons cx x' =>
          obtain ⟨hcx, hwx'⟩ := wsFree_cons hwx
          simp only [List.cons_append, List.cons_prefix_cons, List.cons.injEq]
          cases hta : ta with
          | nil =>
              subst hta
              simp only [List.nil_append]
              cases x' with
              | nil =>
                  simp only [List.nil_append, List.cons_prefix_cons]
                  tauto
              | cons cx' x'' =>
                  obtain ⟨hcx', -⟩ := wsFree_cons hwx'
                  simp only [List.cons_append, List.cons_prefix_cons]
                  constructor
                  · rintro ⟨-, h2, -⟩
                    rw [← h2] at hcx'
                    simp [isWS] at hcx'
                  · rintro ⟨⟨-, h2⟩, -⟩
                    simp at h2
          | cons ta0 ta' =>
              rw [← hta]
              have hta_ne : ta ≠ [] := by rw [hta]; simp
              constructor
              · rintro ⟨h1, h2⟩
                have := (ih x' hta_ne hwta hwx').mp h2
                exact ⟨⟨h1, this.1⟩, this.2⟩
              · rintro ⟨⟨h1, h2⟩, h3⟩
                exact ⟨h1, (ih x' hta_ne hwta hwx').mpr ⟨h2, h3⟩⟩

/-- One separator-worth of `str.replace` on a proper space-join: either the
pattern matches with its space on this separator (consuming a suffix-aligned
`a` and a prefix of the following text) or the symbol and separator are
copied unchanged. -/
theorem replace_step (a b : List Char) (ha : a ≠ []) (hb : b ≠ [])
    (hwa : wsFree a) (hwb : wsFree b) :
    ∀ (x t : List Char), wsFree x →
    pyReplace (a ++ ' ' :: b) (a ++ b) (x ++ ' ' :: t) =
      if a <:+ x ∧ b <+: t
      then x ++ b ++ pyReplace (a ++ ' ' :: b) (a ++ b) (t.drop b.length)
      else x ++ ' ' :: pyReplace (a ++ ' ' :: b) (a ++ b) t := by
  intro x
  induction x with
  | nil =>
      intro t hwx
      have hnp : ¬ ((a ++ ' ' :: b) ≠ [] ∧ isPre (a ++ ' ' :: b) (' ' :: t) = true) := by
        rintro ⟨-, hpre⟩
        rw [isPre_iff] at hpre
        cases hha : a with
        | nil => exact ha hha
        | cons ha' ta =>
            rw [hha, List.cons_append, List.cons_prefix_cons] at hpre
            have hws : isWS ha' = false := (wsFree_cons (hha ▸ hwa)).1
            rw [hpre.1] at hws
            simp [isWS] at hws
      rw [List.nil_append, pyReplace_cons, if_neg hnp, if_neg ?hcnd]
      case hcnd =>
        rintro ⟨hsa, -⟩
        exact ha (List.suffix_nil.mp hsa)
      rfl
  | cons c x' ih =>
      intro t hwx
      obtain ⟨hwc, hwx'⟩ := wsFree_cons hwx
      rw [List.cons_append, pyReplace_cons]
      by_cases hcase : a = c :: x' ∧ b <+: t
      · obtain ⟨hax, hbt⟩ := hcase
        have hpre : isPre (a ++ ' ' :: b) (c :: (x' ++ ' ' :: t)) = true := by
          rw [isPre_iff, show c :: (x' ++ ' ' :: t) = (c :: x') ++ ' ' :: t from rfl]
          exact (pat_prefix_iff b t a (c :: x') ha hwa hwx).mpr ⟨hax, hbt⟩
        rw [if_pos ⟨by simp, hpre⟩]
        obtain ⟨t', ht'⟩ := hbt
        have hdrop : (c :: (x' ++ ' ' :: t)).drop (a ++ ' ' :: b).length = t.drop b.length := by
          rw [show c :: (x' ++ ' ' :: t) = (a ++ ' ' :: b) ++ t' by rw [hax, ← ht']; simp]
          rw [List.drop_left, ← ht', List.drop_left]
        rw [hdrop, if_pos ⟨hax ▸ List.suffix_refl a, ⟨t', ht'⟩⟩, hax]
      · have hnpre : ¬ ((a ++ ' ' :: b) ≠ [] ∧
            isPre (a ++ ' ' :: b) (c :: (x' ++ ' ' :: t)) = true) := by
          rintro ⟨-, hpre⟩
          rw [isPre_iff, show c :: (x' ++ ' ' :: t) = (c :: x') ++ ' ' :: t from rfl] at hpre
          exact hcase ((pat_prefix_iff b t a (c :: x') ha hwa hwx).mp hpre)
        rw [if_neg hnpre, ih t hwx']
        by_cases hsub : a <:+ x' ∧ b <+: t
        · rw [if_pos hsub, if_pos ⟨hsub.1.trans (List.suffix_cons c x'), hsub.2⟩]
          simp
        · rw [if_neg hsub, if_neg ?hcnd2]
          case hcnd2 =>
            rintro ⟨hsuf, hbt⟩
            rcases List.suffix_cons_iff.mp hsuf with h1 | h1
            · exact hcase ⟨h1, hbt⟩
            · exact hsub ⟨h1, hbt⟩
          rfl

theorem strMerge_ne_nil (a b : Sym) (syms : List Sym) (hne : syms ≠ []) :
    strMerge a b syms ≠ [] := by
  rw [strMerge.eq_def]
  split
  · exact absurd rfl hne
  · simp
  · split
    · split
      · simp
      · split
        · simp
        · simp
    · simp

theorem joinSp_cons (x : Sym) (L : List Sym) (hL : L ≠ []) :
    joinSp (x :: L) = x ++ ' ' :: joinSp L := by
  cases L with
  | nil => exact absurd rfl hL
  | cons y r => rfl

theorem joinSp_cons_append (u z : Sym) (l : List Sym) :
    joinSp ((u ++ z) :: l) = u ++ joinSp (z :: l) := by
  cases l with
  | nil => rfl
  | cons w r =>
      show (u ++ z) ++ ' ' :: joinSp (w :: r) = u ++ (z ++ ' ' :: joinSp (w :: r))
      rw [List.append_assoc]

theorem wsFree_drop (y : List Char) (n : Nat) (h : wsFree y) : wsFree (y.drop n) :=
  fun c hc => h c (List.mem_of_mem_drop hc)

theorem prefix_join_iff (b y : List Char) (rest : List Sym) (hwb : wsFree b) (hwy : wsFree y) :
    b <+: joinSp (y :: rest) ↔ b <+: y := by
  cases rest with
  | nil => exact Iff.rfl
  | cons r0 r' =>
      rw [joinSp_cons _ _ (by simp)]
      constructor
      · intro hp
        by_cases hlen : b.length ≤ y.length
        · rw [List.prefix_iff_eq_take] at hp
          rw [List.take_append_of_le_length hlen] at hp
          exact List.prefix_iff_eq_take.mpr hp
        · exfalso
          have hb : b = (y ++ ' ' :: joinSp (r0 :: r')).take b.length :=
            List.prefix_iff_eq_take.mp hp
          have hmem : ' ' ∈ b := by
            rw [hb]
            have hsplit : b.length = y.length + ((b.length - y.length - 1) + 1) := by
              omega
            rw [hsplit, List.take_append, List.take_succ_cons]
            exact List.mem_append_right _ (List.mem_cons_self _ _)
          have := hwb ' ' hmem
          simp [isWS] at this
      · intro hp
        exact hp.trans (List.prefix_append y _)

theorem strMerge_nil (a b : Sym) : strMerge a b [] = [] := by rw [strMerge]

theorem strMerge_one (a b x : Sym) : strMerge a b [x] = [x] := by rw [strMerge]

theorem strMerge_pos_nil (a b x y : Sym) (rest : List Sym) (hcnd : a <:+ x ∧ b <+: y)
    (hyd : y.drop b.length = []) :
    strMerge a b (x :: y :: rest) = (x ++ b) :: strMerge a b rest := by
  rw [strMerge, if_pos hcnd]
  split
  · rfl
  · rename_i y0 ys hy2
    rw [hyd] at hy2
    cases hy2

theorem strMerge_pos_cons (a b x y : Sym) (rest : List Sym) (hcnd : a <:+ x ∧ b <+: y)
    (y0 : Char) (ys : List Char) (hyd : y.drop b.length = y0 :: ys) (z : Sym) (l : List Sym)
    (hg : strMerge a b ((y0 :: ys) :: rest) = z :: l) :
    strMerge a b (x :: y :: rest) = (x ++ b ++ z) :: l := by
  rw [strMerge, if_pos hcnd]
  split
  · rename_i hy2
    rw [hyd] at hy2
    cases hy2
  · rename_i y0' ys' hy2
    rw [hyd] at hy2
    injection hy2 with h1 h2
    subst h1; subst h2
    rw [hg]

theorem strMerge_neg (a b x y : Sym) (rest : List Sym) (hcnd : ¬ (a <:+ x ∧ b <+: y)) :
    strMerge a b (x :: y :: rest) = x :: strMerge a b (y :: rest) := by
  rw [strMerge, if_neg hcnd]

theorem pyReplace_no_ws (pat repl : List Char) (hsp : ∃ c ∈ pat, isWS c = true) :
    ∀ x : List Char, wsFree x → pyReplace pat repl x = x := by
  intro x
  induction x with
  | nil => intro _; rfl
  | cons c x' ih =>
      intro hwx
      rw [pyReplace_cons, if_neg ?hnp]
      case hnp =>
        rintro ⟨-, hpre⟩
        rw [isPre_iff] at hpre
        obtain ⟨d, hd, hdws⟩ := hsp
        have hmem := hpre.subset hd
        have hneg := hwx d hmem
        rw [hdws] at hneg
        cases hneg
      rw [ih (wsFree_cons hwx).2]

/-- `str.replace` of the bigram on a proper space-join is exactly the
symbol-level `strMerge`. -/
theorem replace_join (a b : List Char) (ha : a ≠ []) (hb : b ≠ [])
    (hwa : wsFree a) (hwb : wsFree b) :
    ∀ (N : Nat) (syms : List Sym),
    (syms.map List.length).sum + syms.length ≤ N →
    (∀ s ∈ syms, s ≠ [] ∧ wsFree s) →
    pyReplace (a ++ ' ' :: b) (a ++ b) (joinSp syms) = joinSp (strMerge a b syms) := by
  intro N
  induction N with
  | zero =>
      intro syms hm _
      cases syms with
      | nil => rw [strMerge_nil]; rfl
      | cons s r => simp at hm
  | succ N ih =>
      intro syms hm hgood
      match syms with
      | [] => rw [strMerge_nil]; rfl
      | [x] =>
          obtain ⟨hxne, hwx⟩ := hgood x (List.mem_cons_self _ _)
          rw [strMerge_one]
          exact pyReplace_no_ws _ _ ⟨' ', by simp, by simp [isWS]⟩ x hwx
      | x :: y :: rest =>
          obtain ⟨hxne, hwx⟩ := hgood x (List.mem_cons_self _ _)
          obtain ⟨hyne, hwy⟩ := hgood y (List.mem_cons_of_mem _ (List.mem_cons_self _ _))
          have hgrest : ∀ s ∈ rest, s ≠ [] ∧ wsFree s := fun s hs =>
            hgood s (List.mem_cons_of_mem _ (List.mem_cons_of_mem _ hs))
          have hgyrest : ∀ s ∈ y :: rest, s ≠ [] ∧ wsFree s := fun s hs =>
            hgood s (List.mem_cons_of_mem _ hs)
          simp only [List.map_cons, List.sum_cons, List.length_cons] at hm
          rw [show joinSp (x :: y :: rest) = x ++ ' ' :: joinSp (y :: rest) from rfl,
            replace_step a b ha hb hwa hwb x (joinSp (y :: rest)) hwx]
          have hbridge := prefix_join_iff b y rest hwb hwy
          by_cases hcnd : a <:+ x ∧ b <+: y
          · rw [if_pos ⟨hcnd.1, hbridge.mpr hcnd.2⟩]
            cases hyd : y.drop b.length with
            | nil =>
                have hby : b = y := by
                  obtain ⟨u, hu⟩ := hcnd.2
                  have hu' : u = y.drop b.length := by rw [← hu, List.drop_left]
                  rw [hyd] at hu'
                  rw [← hu, hu', List.append_nil]
                rw [strMerge_pos_nil a b x y rest hcnd hyd]
                cases rest with
                | nil =>
                    rw [show joinSp [y] = y from rfl, hyd, pyReplace_nil, strMerge_nil]
                    simp [joinSp]
                | cons r0 r' =>
                    have hdrop : (joinSp (y :: r0 :: r')).drop b.length
                        = ' ' :: joinSp (r0 :: r') := by
                      rw [show joinSp (y :: r0 :: r') = y ++ ' ' :: joinSp (r0 :: r') from rfl,
                        hby, List.drop_left]
                    rw [hdrop]
                    have hsp := replace_step a b ha hb hwa hwb [] (joinSp (r0 :: r'))
                      (fun c hc => absurd hc (List.not_mem_nil c))
                    rw [List.nil_append,
                      if_neg (fun hc => ha (List.suffix_nil.mp hc.1))] at hsp
                    have hm3 : ((r0 :: r').map List.length).sum + (r0 :: r').length ≤ N := by
                      simp only [List.map_cons, List.sum_cons, List.length_cons] at hm ⊢
                      omega
                    rw [hsp, List.nil_append, ih (r0 :: r') hm3 hgrest]
                    rw [joinSp_cons (x ++ b) (strMerge a b (r0 :: r'))
                      (strMerge_ne_nil a b _ (by simp))]
            | cons y0 ys =>
                have hydecomp : b ++ (y0 :: ys) = y := by
                  obtain ⟨u, hu⟩ := hcnd.2
                  have hu' : u = y.drop b.length := by rw [← hu, List.drop_left]
                  rw [hyd] at hu'
                  rw [← hu', hu]
                have hwtail : wsFree (y0 :: ys) := by
                  rw [← hyd]
                  exact wsFree_drop y b.length hwy
                have hdrop : (joinSp (y :: rest)).drop b.length
                    = joinSp ((y0 :: ys) :: rest) := by
                  cases rest with
                  | nil => exact hyd
                  | cons r0 r' =>
                      show (y ++ ' ' :: joinSp (r0 :: r')).drop b.length
                        = (y0 :: ys) ++ ' ' :: joinSp (r0 :: r')
                      rw [← hydecomp, List.append_assoc]
                      rw [List.drop_left]
                have hmeas : ((((y0 :: ys) :: rest).map List.length).sum
                    + ((y0 :: ys) :: rest).length) ≤ N := by
                  have hlen := congrArg List.length hydecomp
                  simp only [List.length_append, List.length_cons] at hlen
                  simp only [List.map_cons, List.sum_cons, List.length_cons]
                  have hb1 : 1 ≤ b.length := by
                    cases hbb : b with
                    | nil => exact absurd hbb hb
                    | cons c cs => simp
                  omega
                have hgy0 : ∀ s ∈ (y0 :: ys) :: rest, s ≠ [] ∧ wsFree s := by
                  intro s hs
                  rcases List.mem_cons.mp hs with rfl | hs'
                  · exact ⟨by simp, hwtail⟩
                  · exact hgrest s hs'
                rw [hdrop, ih ((y0 :: ys) :: rest) hmeas hgy0]
                cases hg : strMerge a b ((y0 :: ys) :: rest) with
                | nil => exact absurd hg (strMerge_ne_nil a b _ (by simp))
                | cons z l =>
                    rw [strMerge_pos_cons a b x y rest hcnd y0 ys hyd z l hg,
                      joinSp_cons_append (x ++ b) z l]
          · rw [if_neg (fun hc => hcnd ⟨hc.1, hbridge.mp hc.2⟩)]
            have hm2 : ((y :: rest).map List.length).sum + (y :: rest).length ≤ N := by
              simp only [List.map_cons, List.sum_cons, List.length_cons]
              omega
            rw [ih (y :: rest) hm2 hgyrest,
              strMerge_neg a b x y rest hcnd,
              joinSp_cons x (strMerge a b (y :: rest)) (strMerge_ne_nil a b _ (by simp))]

theorem drop_nil_prefix_eq {b y : List Char} (hp : b <+: y) (hyd : y.drop b.length = []) :
    b = y := by
  obtain ⟨u, hu⟩ := hp
  have hu' : u = y.drop b.length := by rw [← hu, List.drop_left]
  rw [hyd] at hu'
  rw [← hu, hu', List.append_nil]

theorem drop_cons_prefix_eq {b y : List Char} {y0 : Char} {ys : List Char}
    (hp : b <+: y) (hyd : y.drop b.length = y0 :: ys) : b ++ (y0 :: ys) = y := by
  obtain ⟨u, hu⟩ := hp
  have hu' : u = y.drop b.length := by rw [← hu, List.drop_left]
  rw [hyd] at hu'
  rw [← hu', hu]

/-- Structural facts about `strMerge`: it preserves the concatenated content,
never increases the number of symbols, keeps symbols nonempty and
whitespace-free, and every output symbol is either an input symbol or has at
least two characters (the tail ones even come from the input's tail). -/
theorem strMerge_props (a b : Sym) (hb : b ≠ []) :
    ∀ (N : Nat) (syms : List Sym),
    (syms.map List.length).sum + syms.length ≤ N →
    (∀ s ∈ syms, s ≠ [] ∧ wsFree s) →
    (strMerge a b syms).flatten = syms.flatten
    ∧ (strMerge a b syms).length ≤ syms.length
    ∧ (∀ u ∈ strMerge a b syms, u ≠ [] ∧ wsFree u)
    ∧ (∀ u ∈ strMerge a b syms, u ∈ syms ∨ 2 ≤ u.length)
    ∧ (∀ u ∈ (strMerge a b syms).tail, u ∈ syms.tail ∨ 2 ≤ u.length) := by
  intro N
  induction N with
  | zero =>
      intro syms hm _
      cases syms with
      | nil =>
          rw [strMerge_nil]
          exact ⟨rfl, Nat.le_refl _, fun u hu => absurd hu (List.not_mem_nil u),
            fun u hu => absurd hu (List.not_mem_nil u),
            fun u hu => absurd hu (List.not_mem_nil u)⟩
      | cons s r => simp at hm
  | succ N ih =>
      intro syms hm hgood
      match syms with
      | [] =>
          rw [strMerge_nil]
          exact ⟨rfl, Nat.le_refl _, fun u hu => absurd hu (List.not_mem_nil u),
            fun u hu => absurd hu (List.not_mem_nil u),
            fun u hu => absurd hu (List.not_mem_nil u)⟩
      | [x] =>
          rw [strMerge_one]
          refine ⟨rfl, Nat.le_refl _, fun u hu => ?_, fun u hu => Or.inl hu, fun u hu => ?_⟩
          · rcases List.mem_singleton.mp hu with rfl
            exact hgood u (List.mem_cons_self _ _)
          · simp at hu
      | x :: y :: rest =>
          obtain ⟨hxne, hwx⟩ := hgood x (List.mem_cons_self _ _)
          obtain ⟨hyne, hwy⟩ := hgood y (List.mem_cons_of_mem _ (List.mem_cons_self _ _))
          have hgrest : ∀ s ∈ rest, s ≠ [] ∧ wsFree s := fun s hs =>
            hgood s (List.mem_cons_of_mem _ (List.mem_cons_of_mem _ hs))
          have hgyrest : ∀ s ∈ y :: rest, s ≠ [] ∧ wsFree s := fun s hs =>
            hgood s (List.mem_cons_of_mem _ hs)
          have hx1 : 0 < x.length := List.length_pos.mpr hxne
          have hb1 : 0 < b.length := List.length_pos.mpr hb
          simp only [List.map_cons, List.sum_cons, List.length_cons] at hm
          by_cases hcnd : a <:+ x ∧ b <+: y
          · cases hyd : y.drop b.length with
            | nil =>
                have hby : b = y := drop_nil_prefix_eq hcnd.2 hyd
                rw [strMerge_pos_nil a b x y rest hcnd hyd]
                have hmr : (rest.map List.length).sum + rest.length ≤ N := by omega
                obtain ⟨hfl, hle, hne, helem, -⟩ := ih rest hmr hgrest
                refine ⟨?_, ?_, ?_, ?_, ?_⟩
                · simp only [List.flatten_cons, hfl]
                  rw [hby, List.append_assoc]
                · simp only [List.length_cons]
                  omega
                · intro u hu
                  rcases List.mem_cons.mp hu with rfl | hu'
                  · constructor
                    · simp [hxne]
                    · intro c hc
                      rcases List.mem_append.mp hc with h | h
                      · exact hwx c h
                      · exact (hby ▸ hwy) c h
                  · exact hne u hu'
                · intro u hu
                  rcases List.mem_cons.mp hu with rfl | hu'
                  · right
                    rw [List.length_append]
                    omega
                  · rcases helem u hu' with h | h
                    · exact Or.inl (List.mem_cons_of_mem _ (List.mem_cons_of_mem _ h))
                    · exact Or.inr h
                · intro u hu
                  simp only [List.tail_cons] at hu
                  rcases helem u hu with h | h
                  · exact Or.inl (List.mem_cons_of_mem _ h)
                  · exact Or.inr h
            | cons y0 ys =>
                have hydecomp : b ++ (y0 :: ys) = y := drop_cons_prefix_eq hcnd.2 hyd
                have hwtail : wsFree (y0 :: ys) := by
                  rw [← hyd]
                  exact wsFree_drop y b.length hwy
                have hlen := congrArg List.length hydecomp
                simp only [List.length_append, List.length_cons] at hlen
                have hmg : (((y0 :: ys) :: rest).map List.length).sum
                    + ((y0 :: ys) :: rest).length ≤ N := by
                  simp only [List.map_cons, List.sum_cons, List.length_cons]
                  omega
                have hgy0 : ∀ s ∈ (y0 :: ys) :: rest, s ≠ [] ∧ wsFree s := by
                  intro s hs
                  rcases List.mem_cons.mp hs with rfl | hs'
                  · exact ⟨by simp, hwtail⟩
                  · exact hgrest s hs'
                obtain ⟨hfl, hle, hne, helem, htail⟩ := ih ((y0 :: ys) :: rest) hmg hgy0
                cases hg : strMerge a b ((y0 :: ys) :: rest) with
                | nil => exact absurd hg (strMerge_ne_nil a b _ (by simp))
                | cons z l =>
                    rw [strMerge_pos_cons a b x y rest hcnd y0 ys hyd z l hg]
                    rw [hg] at hfl hle hne helem htail
                    have hzgood := hne z (List.mem_cons_self _ _)
                    refine ⟨?_, ?_, ?_, ?_, ?_⟩
                    · simp only [List.flatten_cons] at hfl ⊢
                      calc x ++ b ++ z ++ l.flatten
                          = x ++ b ++ (z ++ l.flatten) := by simp [List.append_assoc]
                        _ = x ++ b ++ (y0 :: ys ++ rest.flatten) := by rw [hfl]
                        _ = x ++ (b ++ (y0 :: ys)) ++ rest.flatten := by
                            simp [List.append_assoc]
                        _ = x ++ (y ++ rest.flatten) := by
                            rw [hydecomp, List.append_assoc]
                    · simp only [List.length_cons] at hle ⊢
                      omega
                    · intro u hu
                      rcases List.mem_cons.mp hu with rfl | hu'
                      · refine ⟨by simp [hxne], ?_⟩
                        intro c hc
                        rcases List.mem_append.mp hc with h | h
                        · rcases List.mem_append.mp h with h' | h'
                          · exact hwx c h'
                          · exact hwy c (hcnd.2.subset h')
                        · exact hzgood.2 c h
                      · exact hne u (List.mem_cons_of_mem _ hu')
                    · intro u hu
                      rcases List.mem_cons.mp hu with rfl | hu'
                      · right
                        simp only [List.length_append]
                        omega
                      · rcases htail u hu' with h | h
                        · exact Or.inl (List.mem_cons_of_mem _ (List.mem_cons_of_mem _ h))
                        · exact Or.inr h
                    · intro u hu
                      simp only [List.tail_cons] at hu
                      rcases htail u hu with h | h
                      · exact Or.inl (List.mem_cons_of_mem _ h)
                      · exact Or.inr h
          · rw [strMerge_neg a b x y rest hcnd]
            have hmy : ((y :: rest).map List.length).sum + (y :: rest).length ≤ N := by
              simp only [List.map_cons, List.sum_cons, List.length_cons]
              omega
            obtain ⟨hfl, hle, hne, helem, -⟩ := ih (y :: rest) hmy hgyrest
            refine ⟨?_, ?_, ?_, ?_, ?_⟩
            · simp only [List.flatten_cons, hfl]
            · simp only [List.length_cons] at hle ⊢
              omega
            · intro u hu
              rcases List.mem_cons.mp hu with rfl | hu'
              · exact ⟨hxne, hwx⟩
              · exact hne u hu'
            · intro u hu
              rcases List.mem_cons.mp hu with rfl | hu'
              · exact Or.inl (List.mem_cons_self _ _)
              · rcases helem u hu' with h | h
                · exact Or.inl (List.mem_cons_of_mem _ h)
                · exact Or.inr h
            · intro u hu
              simp only [List.tail_cons] at hu
              rcases helem u hu with h | h
              · exact Or.inl h
              · exact Or.inr h

/-- If the chosen pair occurs as adjacent symbols, `strMerge` strictly
decreases the number of symbols (some merge always happens — possibly a
misaligned one further left). -/
theorem strMerge_length_lt (a b : Sym) (hb : b ≠ []) :
    ∀ (N : Nat) (syms : List Sym),
    (syms.map List.length).sum + syms.length ≤ N →
    (∀ s ∈ syms, s ≠ [] ∧ wsFree s) →
    (a, b) ∈ adjPairs syms →
    (strMerge a b syms).length < syms.length := by
  intro N
  induction N with
  | zero =>
      intro syms hm _ hocc
      cases syms with
      | nil => simp [adjPairs] at hocc
      | cons s r => simp at hm
  | succ N ih =>
      intro syms hm hgood hocc
      match syms with
      | [] => simp [adjPairs] at hocc
      | [x] => simp [adjPairs] at hocc
      | x :: y :: rest =>
          have hgrest : ∀ s ∈ rest, s ≠ [] ∧ wsFree s := fun s hs =>
            hgood s (List.mem_cons_of_mem _ (List.mem_cons_of_mem _ hs))
          have hgyrest : ∀ s ∈ y :: rest, s ≠ [] ∧ wsFree s := fun s hs =>
            hgood s (List.mem_cons_of_mem _ hs)
          simp only [List.map_cons, List.sum_cons, List.length_cons] at hm
          by_cases hcnd : a <:+ x ∧ b <+: y
          · cases hyd : y.drop b.length with
            | nil =>
                rw [strMerge_pos_nil a b x y rest hcnd hyd]
                have hmr : (rest.map List.length).sum + rest.length ≤ N := by omega
                obtain ⟨-, hle, -, -, -⟩ := strMerge_props a b hb N rest hmr hgrest
                simp only [List.length_cons]
                omega
            | cons y0 ys =>
                have hydecomp : b ++ (y0 :: ys) = y := drop_cons_prefix_eq hcnd.2 hyd
                have hwtail : wsFree (y0 :: ys) := by
                  rw [← hyd]
                  exact wsFree_drop y b.length
                    (hgood y (List.mem_cons_of_mem _ (List.mem_cons_self _ _))).2
                have hlen := congrArg List.length hydecomp
                simp only [List.length_append, List.length_cons] at hlen
                have hb1 : 0 < b.length := List.length_pos.mpr hb
                have hmg : (((y0 :: ys) :: rest).map List.length).sum
                    + ((y0 :: ys) :: rest).length ≤ N := by
                  simp only [List.map_cons, List.sum_cons, List.length_cons]
                  omega
                have hgy0 : ∀ s ∈ (y0 :: ys) :: rest, s ≠ [] ∧ wsFree s := by
                  intro s hs
                  rcases List.mem_cons.mp hs with rfl | hs'
                  · exact ⟨by simp, hwtail⟩
                  · exact hgrest s hs'
                obtain ⟨-, hle, -, -, -⟩ := strMerge_props a b hb N ((y0 :: ys) :: rest) hmg hgy0
                cases hg : strMerge a b ((y0 :: ys) :: rest) with
                | nil => exact absurd hg (strMerge_ne_nil a b _ (by simp))
                | cons z l =>
                    rw [strMerge_pos_cons a b x y rest hcnd y0 ys hyd z l hg]
                    rw [hg] at hle
                    simp only [List.length_cons] at hle ⊢
                    omega
          · rw [strMerge_neg a b x y rest hcnd]
            have hocc' : (a, b) ∈ adjPairs (y :: rest) := by
              rcases (by simpa [adjPairs_cons_cons] using hocc :
                  (a = x ∧ b = y) ∨ (a, b) ∈ adjPairs (y :: rest)) with ⟨hax, hby⟩ | h1
              · exact absurd ⟨by rw [hax], by rw [hby]⟩ hcnd
              · exact h1
            have hmy : ((y :: rest).map List.length).sum + (y :: rest).length ≤ N := by
              simp only [List.map_cons, List.sum_cons, List.length_cons]
              omega
            have := ih (y :: rest) hmy hgyrest hocc'
            simp only [List.length_cons] at this ⊢
            omega

theorem splitAux_nonws : ∀ (s rest acc : List Char), wsFree s →
    splitAux (s ++ rest) acc = splitAux rest (s.reverse ++ acc) := by
  intro s
  induction s with
  | nil => intro rest acc _; simp
  | cons c s' ih =>
      intro rest acc hws
      obtain ⟨hc, hws'⟩ := wsFree_cons hws
      show splitAux (c :: (s' ++ rest)) acc = _
      rw [show splitAux (c :: (s' ++ rest)) acc
          = if isWS c = true then
              (if acc = [] then splitAux (s' ++ rest) []
               else acc.reverse :: splitAux (s' ++ rest) [])
            else splitAux (s' ++ rest) (c :: acc) from rfl]
      rw [if_neg (by rw [hc]; simp), ih rest (c :: acc) hws']
      simp

theorem splitAux_space (rest : List Char) (acc : List Char) (hacc : acc ≠ []) :
    splitAux (' ' :: rest) acc = acc.reverse :: splitAux rest [] := by
  rw [show splitAux (' ' :: rest) acc
      = if isWS ' ' = true then
          (if acc = [] then splitAux rest [] else acc.reverse :: splitAux rest [])
        else splitAux rest (' ' :: acc) from rfl]
  rw [if_pos (by simp [isWS]), if_neg hacc]

theorem pySplit_single (s : List Char) (hne : s ≠ []) (hws : wsFree s) : pySplit s = [s] := by
  have h1 := splitAux_nonws s [] [] hws
  rw [List.append_nil] at h1
  rw [pySplit, h1, List.append_nil]
  rw [show splitAux [] s.reverse
      = if s.reverse = [] then [] else [s.reverse.reverse] from rfl]
  rw [if_neg (by simpa using hne), List.reverse_reverse]

theorem pySplit_join : ∀ syms : List Sym, syms ≠ [] → (∀ s ∈ syms, s ≠ [] ∧ wsFree s) →
    pySplit (joinSp syms) = syms := by
  intro syms
  induction syms with
  | nil => intro h _; exact absurd rfl h
  | cons x rest ih =>
      intro _ hgood
      obtain ⟨hxne, hwx⟩ := hgood x (List.mem_cons_self _ _)
      cases rest with
      | nil => exact pySplit_single x hxne hwx
      | cons y r =>
          have hgr : ∀ s ∈ y :: r, s ≠ [] ∧ wsFree s := fun s hs =>
            hgood s (List.mem_cons_of_mem _ hs)
          rw [show joinSp (x :: y :: r) = x ++ ' ' :: joinSp (y :: r) from rfl,
            pySplit, splitAux_nonws x (' ' :: joinSp (y :: r)) [] hwx, List.append_nil,
            splitAux_space _ _ (by simpa using hxne), List.reverse_reverse]
          congr 1
          exact ih (by simp) hgr

theorem adjPairs_mem_decomp : ∀ (syms : List Sym) (p : Pair), p ∈ adjPairs syms →
    ∃ l1 l2, syms = l1 ++ p.1 :: p.2 :: l2 := by
  intro syms
  induction syms with
  | nil => intro p hp; simp [adjPairs] at hp
  | cons x rest ih =>
      intro p hp
      cases rest with
      | nil => simp [adjPairs] at hp
      | cons y r =>
          rw [adjPairs_cons_cons] at hp
          rcases List.mem_cons.mp hp with heq | hmem
          · exact ⟨[], r, by subst heq; rfl⟩
          · obtain ⟨l1, l2, hdec⟩ := ih p hmem
            exact ⟨x :: l1, l2, by rw [show (x :: y :: r) = x :: (y :: r) from rfl, hdec]; rfl⟩

theorem setk_not_mem {α : Type} [DecidableEq α] :
    ∀ (nv : List (α × Nat)) (k : α) (f : Nat),
    (∀ e ∈ nv, e.1 ≠ k) → setk nv k f = nv ++ [(k, f)] := by
  intro nv
  induction nv with
  | nil => intro k f _; rfl
  | cons e rest ih =>
      intro k f hne
      rw [show setk (e :: rest) k f
          = if e.1 = k then (k, f) :: rest else e :: setk rest k f from rfl]
      rw [if_neg (hne e (List.mem_cons_self _ _))]
      rw [ih k f (fun e' he' => hne e' (List.mem_cons_of_mem _ he'))]
      rfl

theorem foldl_setk_distinct {α : Type} [DecidableEq α] :
    ∀ (xs acc : List (α × Nat)), ((acc ++ xs).map Prod.fst).Nodup →
    xs.foldl (fun nv e => setk nv e.1 e.2) acc = acc ++ xs := by
  intro xs
  induction xs with
  | nil => intro acc _; simp
  | cons e xs' ih =>
      intro acc hnd
      simp only [List.foldl_cons]
      have hsplit : ((acc.map Prod.fst) ++ (e.1 :: xs'.map Prod.fst)).Nodup := by
        simpa using hnd
      have hdisj := (List.nodup_append.mp hsplit).2.2
      have hne : ∀ e' ∈ acc, e'.1 ≠ e.1 := by
        intro e' he' heq
        exact hdisj (List.mem_map_of_mem Prod.fst he') (heq ▸ List.mem_cons_self _ _)
      rw [setk_not_mem acc e.1 e.2 hne, ih (acc ++ [e]) (by simpa using hnd)]
      simp

theorem merge_vocab_eq_map (p : Pair) (v : Vocab)
    (hdist : ((v.map (fun e => (pyReplace (bigram p) (p.1 ++ p.2) e.1, e.2))).map
        Prod.fst).Nodup) :
    merge_vocab p v = v.map (fun e => (pyReplace (bigram p) (p.1 ++ p.2) e.1, e.2)) := by
  rw [merge_vocab,
    show v.foldl (fun nv e => setk nv (pyReplace (bigram p) (p.1 ++ p.2) e.1) e.2) [] =
      (v.map (fun e => (pyReplace (bigram p) (p.1 ++ p.2) e.1, e.2))).foldl
        (fun nv e => setk nv e.1 e.2) [] by rw [List.foldl_map]]
  exact foldl_setk_distinct _ [] (by simpa using hdist)

/-! ### Vocabulary invariants of `fit` -/

theorem despace_wsFree (x : List Char) (h : wsFree x) : despace x = x := by
  rw [despace, List.filter_eq_self]
  intro c hc
  rw [h c hc]
  rfl

theorem despace_append (x y : List Char) : despace (x ++ y) = despace x ++ despace y := by
  rw [despace, despace, despace, List.filter_append]

theorem despace_join : ∀ syms : List Sym, (∀ s ∈ syms, wsFree s) →
    despace (joinSp syms) = syms.flatten := by
  intro syms
  induction syms with
  | nil => intro _; rfl
  | cons x rest ih =>
      intro hws
      cases rest with
      | nil =>
          show despace x = x ++ []
          rw [despace_wsFree x (hws x (List.mem_cons_self _ _)), List.append_nil]
      | cons y r =>
          rw [show joinSp (x :: y :: r) = x ++ ' ' :: joinSp (y :: r) from rfl,
            despace_append, despace_wsFree x (hws x (List.mem_cons_self _ _)),
            show despace (' ' :: joinSp (y :: r)) = despace (joinSp (y :: r)) by
              rw [despace, despace, List.filter_cons]
              simp [isWS],
            ih (fun s hs => hws s (List.mem_cons_of_mem _ hs))]
          rfl

theorem joinSp_append_single : ∀ (l : List Sym) (x : Sym), l ≠ [] →
    joinSp (l ++ [x]) = joinSp l ++ ' ' :: x := by
  intro l
  induction l with
  | nil => intro x h; exact absurd rfl h
  | cons s r ih =>
      intro x _
      cases r with
      | nil => rfl
      | cons s2 r' =>
          show s ++ ' ' :: joinSp ((s2 :: r') ++ [x]) = (s ++ ' ' :: joinSp (s2 :: r')) ++ ' ' :: x
          rw [ih x (by simp)]
          simp

theorem sentinel_wsFree : wsFree sentinel := by
  intro c hc
  simp only [sentinel, List.mem_cons, List.not_mem_nil, or_false] at hc
  rcases hc with rfl | rfl | rfl | rfl <;> decide

theorem initKey_split (w : List Char) (hne : w ≠ []) (hws : wsFree w) :
    pySplit (initKey w) = w.map (fun c => [c]) ++ [sentinel] := by
  have hgood : ∀ s ∈ w.map (fun c => [c]) ++ [sentinel], s ≠ [] ∧ wsFree s := by
    intro s hs
    rcases List.mem_append.mp hs with h | h
    · obtain ⟨c, hc, rfl⟩ := List.mem_map.mp h
      exact ⟨by simp, fun d hd => by
        rcases List.mem_singleton.mp hd with rfl
        exact hws d hc⟩
    · rcases List.mem_singleton.mp h with rfl
      exact ⟨by simp [sentinel], sentinel_wsFree⟩
  have hkey : initKey w = joinSp (w.map (fun c => [c]) ++ [sentinel]) := by
    rw [initKey, joinSp_append_single _ _ (by simpa using hne)]
  rw [hkey]
  exact pySplit_join _ (by simp) hgood

theorem initKey_despace (w : List Char) (hne : w ≠ []) (hws : wsFree w) :
    despace (initKey w) = w ++ sentinel := by
  have hkey : initKey w = joinSp (w.map (fun c => [c]) ++ [sentinel]) := by
    rw [initKey, joinSp_append_single _ _ (by simpa using hne)]
  rw [hkey, despace_join]
  · rw [List.flatten_append, flatten_map_singleton]
    simp
  · intro s hs
    rcases List.mem_append.mp hs with h | h
    · obtain ⟨c, hc, rfl⟩ := List.mem_map.mp h
      intro d hd
      rcases List.mem_singleton.mp hd with rfl
      exact hws d hc
    · rcases List.mem_singleton.mp h with rfl
      exact sentinel_wsFree

theorem initKey_symbols_good (w : List Char) (hws : wsFree w) :
    ∀ s ∈ w.map (fun c => [c]) ++ [sentinel], s ≠ [] ∧ wsFree s := by
  intro s hs
  rcases List.mem_append.mp hs with h | h
  · obtain ⟨c, hc, rfl⟩ := List.mem_map.mp h
    refine ⟨by simp, fun d hd => ?_⟩
    rcases List.mem_singleton.mp hd with rfl
    exact hws d hc
  · rcases List.mem_singleton.mp h with rfl
    exact ⟨by simp [sentinel], sentinel_wsFree⟩

theorem initKey_eq_join (w : List Char) (hne : w ≠ []) :
    initKey w = joinSp (w.map (fun c => [c]) ++ [sentinel]) := by
  rw [initKey, joinSp_append_single _ _ (by simpa using hne)]

theorem bumpFold1_keys_sub {α : Type} [DecidableEq α] :
    ∀ (xs : List α) (m : List (α × Nat)) (e : α × Nat),
    e ∈ xs.foldl (fun m k => bumpA m k 1) m → e.1 ∈ m.map Prod.fst ∨ e.1 ∈ xs := by
  intro xs
  induction xs with
  | nil => intro m e he; exact Or.inl (List.mem_map_of_mem Prod.fst he)
  | cons k xs' ih =>
      intro m e he
      rcases ih (bumpA m k 1) e he with h1 | h1
      · rw [bumpA_keys] at h1
        by_cases hm : memB k (m.map Prod.fst) = true
        · rw [if_pos hm] at h1
          exact Or.inl h1
        · rw [if_neg (by simp [hm])] at h1
          rcases List.mem_append.mp h1 with h2 | h2
          · exact Or.inl h2
          · rcases List.mem_singleton.mp h2 with rfl
            exact Or.inr (List.mem_cons_self _ _)
      · exact Or.inr (List.mem_cons_of_mem _ h1)

theorem fdedup_subset {α : Type} [DecidableEq α] :
    ∀ (xs acc : List α) (x : α),
    x ∈ xs.foldl (fun acc a => if memB a acc then acc else acc ++ [a]) acc →
    x ∈ acc ∨ x ∈ xs := by
  intro xs
  induction xs with
  | nil => intro acc x hx; exact Or.inl hx
  | cons a xs' ih =>
      intro acc x hx
      rcases ih _ x hx with h1 | h1
      · dsimp only at h1
        by_cases hm : memB a acc = true
        · rw [if_pos hm] at h1
          exact Or.inl h1
        · rw [if_neg (by simp [hm])] at h1
          rcases List.mem_append.mp h1 with h2 | h2
          · exact Or.inl h2
          · rcases List.mem_singleton.mp h2 with rfl
            exact Or.inr (List.mem_cons_self _ _)
      · exact Or.inr (List.mem_cons_of_mem _ h1)

theorem joinSp_length : ∀ l : List Sym, l ≠ [] →
    (joinSp l).length + 1 = l.flatten.length + l.length := by
  intro l
  induction l with
  | nil => intro h; exact absurd rfl h
  | cons x rest ih =>
      intro _
      cases rest with
      | nil => simp [joinSp]
      | cons y r =>
          rw [show joinSp (x :: y :: r) = x ++ ' ' :: joinSp (y :: r) from rfl]
          have := ih (by simp)
          simp only [List.length_append, List.length_cons, List.flatten_cons,
            List.length_append] at this ⊢
          omega

/-- The initial vocabulary of `fit` satisfies the training invariant. -/
theorem initVocab_good (corpus : List (List Char))
    (h : ∀ w ∈ corpus, w ≠ [] ∧ wsFree w) :
    GoodVocab (corpusChars corpus) (initVocab corpus) := by
  have hkeymem : ∀ e ∈ initVocab corpus, ∃ w ∈ corpus, initKey w = e.1 := by
    intro e he
    rcases bumpFold1_keys_sub (corpus.map initKey) [] e he with h1 | h1
    · simp at h1
    · obtain ⟨w, hw, hkw⟩ := List.mem_map.mp h1
      exact ⟨w, hw, hkw⟩
  constructor
  · intro e he
    obtain ⟨w, hw, hkw⟩ := hkeymem e he
    obtain ⟨hwne, hwws⟩ := h w hw
    have hsplit : pySplit e.1 = w.map (fun c => [c]) ++ [sentinel] := by
      rw [← hkw]
      exact initKey_split w hwne hwws
    refine ⟨⟨?_, ?_, ?_⟩, ?_⟩
    · rw [hsplit]; simp
    · rw [hsplit]; exact initKey_symbols_good w hwws
    · rw [hsplit, ← initKey_eq_join w hwne, hkw]
    · intro s hs hlen c hc
      rw [hsplit] at hs
      rcases List.mem_append.mp hs with h1 | h1
      · obtain ⟨d, hd, rfl⟩ := List.mem_map.mp h1
        rcases List.mem_singleton.mp hc with rfl
        exact List.mem_flatten.mpr ⟨w, hw, hd⟩
      · rcases List.mem_singleton.mp h1 with rfl
        simp [sentinel] at hlen
  · have hkeys : ((initVocab corpus).map Prod.fst).Nodup :=
      bumpFold_keys_nodup (corpus.map initKey) [] 1 (by simp)
    have hmap : (initVocab corpus).map (fun e => despace e.1)
        = ((initVocab corpus).map Prod.fst).map despace := by
      rw [List.map_map]
      rfl
    rw [hmap]
    refine List.Nodup.map_on ?_ hkeys
    intro k1 hk1 k2 hk2 hdeq
    obtain ⟨e1, he1, hke1⟩ := List.mem_map.mp hk1
    obtain ⟨e2, he2, hke2⟩ := List.mem_map.mp hk2
    obtain ⟨w1, hw1, hkw1⟩ := hkeymem e1 he1
    obtain ⟨w2, hw2, hkw2⟩ := hkeymem e2 he2
    obtain ⟨hw1ne, hw1ws⟩ := h w1 hw1
    obtain ⟨hw2ne, hw2ws⟩ := h w2 hw2
    have hd1 : despace k1 = w1 ++ sentinel := by
      rw [← hke1, ← hkw1]
      exact initKey_despace w1 hw1ne hw1ws
    have hd2 : despace k2 = w2 ++ sentinel := by
      rw [← hke2, ← hkw2]
      exact initKey_despace w2 hw2ne hw2ws
    have hw12 : w1 = w2 := by
      apply @List.append_cancel_right _ _ sentinel _
      rw [← hd1, ← hd2, hdeq]
    rw [← hke1, ← hkw1, ← hke2, ← hkw2, hw12]

/-- Everything `fit` needs to know about rewriting one well-formed key with
the chosen pair's bigram. -/
theorem rewrite_key_facts (b : Pair) (hb1ne : b.1 ≠ []) (hb2ne : b.2 ≠ [])
    (hwb1 : wsFree b.1) (hwb2 : wsFree b.2) (k : List Char) (hgk : GoodKey k) :
    pySplit (pyReplace (bigram b) (b.1 ++ b.2) k) = strMerge b.1 b.2 (pySplit k)
    ∧ GoodKey (pyReplace (bigram b) (b.1 ++ b.2) k)
    ∧ despace (pyReplace (bigram b) (b.1 ++ b.2) k) = despace k
    ∧ (pyReplace (bigram b) (b.1 ++ b.2) k).length ≤ k.length
    ∧ (b ∈ adjPairs (pySplit k) → (pyReplace (bigram b) (b.1 ++ b.2) k).length < k.length)
    ∧ (∀ cc : List Char, SymOK cc k → SymOK cc (pyReplace (bigram b) (b.1 ++ b.2) k)) := by
  obtain ⟨hsne, hsgood, hjoin⟩ := hgk
  have hrew : pyReplace (bigram b) (b.1 ++ b.2) k
      = joinSp (strMerge b.1 b.2 (pySplit k)) := by
    have := replace_join b.1 b.2 hb1ne hb2ne hwb1 hwb2
      (((pySplit k).map List.length).sum + (pySplit k).length) (pySplit k)
      (Nat.le_refl _) hsgood
    rw [hjoin] at this
    exact this
  obtain ⟨hfl, hle, helne, helor, -⟩ :=
    strMerge_props b.1 b.2 hb2ne
      (((pySplit k).map List.length).sum + (pySplit k).length) (pySplit k)
      (Nat.le_refl _) hsgood
  have hMne : strMerge b.1 b.2 (pySplit k) ≠ [] := strMerge_ne_nil b.1 b.2 _ hsne
  have hsplitnew : pySplit (pyReplace (bigram b) (b.1 ++ b.2) k)
      = strMerge b.1 b.2 (pySplit k) := by
    rw [hrew]
    exact pySplit_join _ hMne helne
  have h1 := joinSp_length (strMerge b.1 b.2 (pySplit k)) hMne
  have h2 := joinSp_length (pySplit k) hsne
  rw [hjoin] at h2
  have hfll : (strMerge b.1 b.2 (pySplit k)).flatten.length
      = (pySplit k).flatten.length := congrArg List.length hfl
  refine ⟨hsplitnew, ⟨?_, ?_, ?_⟩, ?_, ?_, ?_, ?_⟩
  · rw [hsplitnew]; exact hMne
  · rw [hsplitnew]; exact helne
  · rw [hsplitnew, ← hrew]
  · rw [hrew, despace_join _ (fun s hs => (helne s hs).2), hfl,
      ← despace_join _ (fun s hs => (hsgood s hs).2), hjoin]
  · rw [hrew]
    omega
  · intro hocc
    have hlt := strMerge_length_lt b.1 b.2 hb2ne
      (((pySplit k).map List.length).sum + (pySplit k).length) (pySplit k)
      (Nat.le_refl _) hsgood hocc
    rw [hrew]
    omega
  · intro cc hsk s hs hlen c hc
    rw [hsplitnew] at hs
    rcases helor s hs with hin | hlong
    · exact hsk s hin hlen c hc
    · exact absurd hlen (by omega)

/-- One training iteration on a good vocabulary: the chosen pair's components
are nonempty whitespace-free symbols (single characters only from the
corpus), the new vocabulary is the entrywise string-replace image with
frequencies intact, the invariant is preserved, and the total key length
strictly decreases. -/
theorem fitStep_good (cc : List Char) (v : Vocab) (b : Pair) (v' : Vocab)
    (hgv : GoodVocab cc v) (hstep : fitStep v = some (b, v')) :
    (b.1 ≠ [] ∧ b.2 ≠ [] ∧ wsFree b.1 ∧ wsFree b.2
      ∧ (b.1.length = 1 → ∀ c ∈ b.1, c ∈ cc)
      ∧ (b.2.length = 1 → ∀ c ∈ b.2, c ∈ cc))
    ∧ v' = v.map (fun e => (pyReplace (bigram b) (b.1 ++ b.2) e.1, e.2))
    ∧ GoodVocab cc v'
    ∧ keyLenSum v' < keyLenSum v := by
  unfold fitStep at hstep
  cases hm : pyMax (get_stats v) with
  | none => rw [hm] at hstep; exact absurd hstep (by simp)
  | some r =>
      rw [hm] at hstep
      simp only [Option.some.injEq, Prod.mk.injEq] at hstep
      obtain ⟨hb, hv'⟩ := hstep
      obtain ⟨hrmem, -, -⟩ := pyMax_spec (get_stats v) r hm
      have hbkeys : b ∈ (get_stats v).map Prod.fst := by
        rw [← hb]
        exact List.mem_map_of_mem Prod.fst hrmem
      rw [get_stats_keys] at hbkeys
      have hbocc : b ∈ occList v := by
        rcases fdedup_subset (occList v) [] b hbkeys with h1 | h1
        · simp at h1
        · exact h1
      obtain ⟨l, hlmem, hbl⟩ := List.mem_flatten.mp hbocc
      obtain ⟨e0, he0, rfl⟩ := List.mem_map.mp hlmem
      obtain ⟨hgk0, hsym0⟩ := hgv.1 e0 he0
      obtain ⟨l1, l2, hdec⟩ := adjPairs_mem_decomp (pySplit e0.1) b hbl
      have hb1mem : b.1 ∈ pySplit e0.1 := by
        rw [hdec]
        exact List.mem_append_right _ (List.mem_cons_self _ _)
      have hb2mem : b.2 ∈ pySplit e0.1 := by
        rw [hdec]
        exact List.mem_append_right _ (List.mem_cons_of_mem _ (List.mem_cons_self _ _))
      obtain ⟨hb1ne, hwb1⟩ := hgk0.2.1 b.1 hb1mem
      obtain ⟨hb2ne, hwb2⟩ := hgk0.2.1 b.2 hb2mem
      have hkf : ∀ k : List Char, GoodKey k →
          pySplit (pyReplace (bigram b) (b.1 ++ b.2) k) = strMerge b.1 b.2 (pySplit k)
          ∧ GoodKey (pyReplace (bigram b) (b.1 ++ b.2) k)
          ∧ despace (pyReplace (bigram b) (b.1 ++ b.2) k) = despace k
          ∧ (pyReplace (bigram b) (b.1 ++ b.2) k).length ≤ k.length
          ∧ (b ∈ adjPairs (pySplit k) →
              (pyReplace (bigram b) (b.1 ++ b.2) k).length < k.length)
          ∧ (∀ cc' : List Char, SymOK cc' k →
              SymOK cc' (pyReplace (bigram b) (b.1 ++ b.2) k)) :=
        fun k hgk => rewrite_key_facts b hb1ne hb2ne hwb1 hwb2 k hgk
      have hdesp : (v.map (fun e => (pyReplace (bigram b) (b.1 ++ b.2) e.1, e.2))).map
          (fun e => despace e.1) = v.map (fun e => despace e.1) := by
        rw [List.map_map]
        exact List.map_congr_left fun e he => (hkf e.1 (hgv.1 e he).1).2.2.1
      have hdespnd : ((v.map (fun e => (pyReplace (bigram b) (b.1 ++ b.2) e.1, e.2))).map
          (fun e => despace e.1)).Nodup := by
        rw [hdesp]
        exact hgv.2
      have hfstnd : ((v.map (fun e => (pyReplace (bigram b) (b.1 ++ b.2) e.1, e.2))).map
          Prod.fst).Nodup := by
        apply List.Nodup.of_map despace
        rw [List.map_map]
        exact hdespnd
      have himg : v' = v.map (fun e => (pyReplace (bigram b) (b.1 ++ b.2) e.1, e.2)) := by
        rw [← hv', ← hb]
        exact merge_vocab_eq_map r.1 v (by rw [hb]; exact hfstnd)
      refine ⟨⟨hb1ne, hb2ne, hwb1, hwb2, ?_, ?_⟩, himg, ⟨?_, ?_⟩, ?_⟩
      · exact fun hlen => hsym0 b.1 hb1mem hlen
      · exact fun hlen => hsym0 b.2 hb2mem hlen
      · intro e he
        rw [himg] at he
        obtain ⟨e1, he1, rfl⟩ := List.mem_map.mp he
        obtain ⟨hgk1, hsym1⟩ := hgv.1 e1 he1
        exact ⟨(hkf e1.1 hgk1).2.1, (hkf e1.1 hgk1).2.2.2.2.2 cc hsym1⟩
      · rw [himg]
        exact hdespnd
      · rw [himg]
        obtain ⟨v1, v2, hvdec⟩ := List.append_of_mem he0
        subst hvdec
        have hpoint : ∀ e ∈ v1 ++ e0 :: v2,
            (pyReplace (bigram b) (b.1 ++ b.2) e.1).length ≤ e.1.length :=
          fun e he => (hkf e.1 (hgv.1 e he).1).2.2.2.1
        have hle1 : ((v1.map
              (fun e => (pyReplace (bigram b) (b.1 ++ b.2) e.1, e.2))).map
            (fun e : Sym × Nat => e.1.length)).sum
            ≤ (v1.map (fun e : Sym × Nat => e.1.length)).sum := by
          rw [List.map_map]
          apply List.sum_le_sum
          intro e he
          simp only [Function.comp_apply]
          exact hpoint e (List.mem_append_left _ he)
        have hle2 : ((v2.map
              (fun e => (pyReplace (bigram b) (b.1 ++ b.2) e.1, e.2))).map
            (fun e : Sym × Nat => e.1.length)).sum
            ≤ (v2.map (fun e : Sym × Nat => e.1.length)).sum := by
          rw [List.map_map]
          apply List.sum_le_sum
          intro e he
          simp only [Function.comp_apply]
          exact hpoint e (List.mem_append_right _ (List.mem_cons_of_mem _ he))
        have hlt0 : (pyReplace (bigram b) (b.1 ++ b.2) e0.1).length < e0.1.length :=
          (hkf e0.1 hgk0).2.2.2.2.1 hbl
        simp only [keyLenSum, List.map_append, List.map_cons, List.sum_append, List.sum_cons]
        omega

/-! ### Training progress: the number of possible merge iterations -/

theorem stepsFuel_congr (cc : List Char) : ∀ (N : Nat) (v : Vocab), keyLenSum v ≤ N →
    GoodVocab cc v → ∀ n m : Nat, keyLenSum v ≤ n → keyLenSum v ≤ m →
    stepsFuel n v = stepsFuel m v := by
  intro N
  induction N with
  | zero =>
      intro v hvN hgv n m hn hm
      have hnone : fitStep v = none := by
        cases hs : fitStep v with
        | none => rfl
        | some bv =>
            have := (fitStep_good cc v bv.1 bv.2 hgv (by rw [hs])).2.2.2
            omega
      cases n with
      | zero =>
          cases m with
          | zero => rfl
          | succ m' => simp [stepsFuel, hnone]
      | succ n' =>
          cases m with
          | zero => simp [stepsFuel, hnone]
          | succ m' => simp [stepsFuel, hnone]
  | succ N ih =>
      intro v hvN hgv n m hn hm
      cases hs : fitStep v with
      | none =>
          cases n with
          | zero =>
              cases m with
              | zero => rfl
              | succ m' => simp [stepsFuel, hs]
          | succ n' =>
              cases m with
              | zero => simp [stepsFuel, hs]
              | succ m' => simp [stepsFuel, hs]
      | some bv =>
          obtain ⟨-, -, hgv', hlt⟩ := fitStep_good cc v bv.1 bv.2 hgv (by rw [hs])
          cases n with
          | zero => omega
          | succ n' =>
              cases m with
              | zero => omega
              | succ m' =>
                  simp only [stepsFuel, hs]
                  rw [ih bv.2 (by omega) hgv' n' m' (by omega) (by omega)]

theorem fitLoop_length (cc : List Char) : ∀ (m : Nat) (v : Vocab), GoodVocab cc v →
    (fitLoop m v []).length = min m (stepsFuel (keyLenSum v) v) := by
  intro m
  induction m with
  | zero => intro v _; simp [fitLoop]
  | succ m ih =>
      intro v hgv
      cases hs : fitStep v with
      | none =>
          have h0 : stepsFuel (keyLenSum v) v = 0 := by
            cases hk : keyLenSum v with
            | zero => rfl
            | succ j => simp [stepsFuel, hs]
          simp [fitLoop, hs, h0]
      | some bv =>
          obtain ⟨-, -, hgv', hlt⟩ := fitStep_good cc v bv.1 bv.2 hgv (by rw [hs])
          have hred : fitLoop (m + 1) v [] = bv.1 :: fitLoop m bv.2 [] := by
            simp only [fitLoop, hs]
            rw [fitLoop_append m bv.2 ([] ++ [bv.1])]
            simp
          obtain ⟨j, hj⟩ : ∃ j, keyLenSum v = j + 1 := ⟨keyLenSum v - 1, by omega⟩
          have hsteps : stepsFuel (keyLenSum v) v
              = stepsFuel (keyLenSum bv.2) bv.2 + 1 := by
            rw [hj]
            simp only [stepsFuel, hs]
            rw [stepsFuel_congr cc (keyLenSum bv.2) bv.2 (Nat.le_refl _) hgv' j
              (keyLenSum bv.2) (by omega) (Nat.le_refl _)]
          rw [hred, hsteps]
          simp only [List.length_cons, ih bv.2 hgv']
          omega

/-- C5: after `fit` with `max_merges = m` on a fresh engine (over a corpus of
nonempty whitespace-free words), the merge-rule sequence has length exactly
`min m k`, where `k` is the number of merge iterations possible before the
pair statistics are exhausted; in particular the length never exceeds `m`
(early exhaustion just terminates the loop). -/
theorem c5_rule_count (m : Nat) (corpus : List (List Char))
    (h : ∀ w ∈ corpus, w ≠ [] ∧ wsFree w) :
    (fitMerges m corpus).length = min m (kOf corpus)
    ∧ (fitMerges m corpus).length ≤ m := by
  have hgv : GoodVocab (corpusChars corpus) (initVocab corpus) := initVocab_good corpus h
  have hlen := fitLoop_length (corpusChars corpus) m (initVocab corpus) hgv
  have hfm : fitMerges m corpus = fitLoop m (initVocab corpus) [] := rfl
  constructor
  · rw [hfm, hlen, kOf]
  · rw [hfm, hlen]
    omega

theorem c5_rule_count_witness :
    (∀ w ∈ [['a', 'b']], w ≠ [] ∧ wsFree w)
    ∧ (fitMerges 5 [['a', 'b']]).length = min 5 (kOf [['a', 'b']])
    ∧ (fitMerges 5 [['a', 'b']]).length ≤ 5 :=
  ⟨by decide, c5_rule_count 5 [['a', 'b']] (by decide)⟩

theorem vocabAfter_good (cc : List Char) : ∀ (n : Nat) (v : Vocab), GoodVocab cc v →
    GoodVocab cc (vocabAfter n v) := by
  intro n
  induction n with
  | zero => intro v hgv; exact hgv
  | succ n ih =>
      intro v hgv
      simp only [vocabAfter]
      cases hs : fitStep v with
      | none => exact hgv
      | some bv =>
          exact ih bv.2 (fitStep_good cc v bv.1 bv.2 hgv (by rw [hs])).2.2.1

/-- C2, counterexample: on the corpus `["ca", "ab", "cab"]` the fourth merge
iteration chooses the pair `('a', 'b</w>')`; the key `'ca b</w>'` does not
contain that pair as adjacent symbols (its symbol sequence is
`['ca', 'b</w>']`), yet `merge_vocab`'s string replace still rewrites it to
`'cab</w>'`, because the bigram text `'a b</w>'` matches across the symbol
boundary inside `'ca'`.  So keys are not rewritten only at adjacent-symbol
occurrences of the chosen pair. -/
theorem c2_counterexample :
    (fitStep (vocabAfter 3 (initVocab [['c', 'a'], ['a', 'b'],
        ['c', 'a', 'b']]))).map (fun r => r.1)
      = some (['a'], ['b', '<', '/', 'w', '>'])
    ∧ (['c', 'a', ' ', 'b', '<', '/', 'w', '>'], 1)
        ∈ vocabAfter 3 (initVocab [['c', 'a'], ['a', 'b'], ['c', 'a', 'b']])
    ∧ pySplit ['c', 'a', ' ', 'b', '<', '/', 'w', '>']
        = [['c', 'a'], ['b', '<', '/', 'w', '>']]
    ∧ (['a'], ['b', '<', '/', 'w', '>'])
        ∉ adjPairs (pySplit ['c', 'a', ' ', 'b', '<', '/', 'w', '>'])
    ∧ pyReplace (bigram (['a'], ['b', '<', '/', 'w', '>']))
        (['a'] ++ ['b', '<', '/', 'w', '>']) ['c', 'a', ' ', 'b', '<', '/', 'w', '>']
        = ['c', 'a', 'b', '<', '/', 'w', '>'] := by
  refine ⟨?_, ?_, ?_, ?_, ?_⟩ <;> decide

/-- C2, amended: in every merge iteration of `fit` (on a corpus of nonempty
whitespace-free words), each vocabulary key is rewritten by replacing every
left-to-right non-overlapping occurrence of the space-joined bigram text of
the chosen pair — which can also match across symbol boundaries, as the
counterexample shows — with the pair's concatenation, and every entry's
frequency count is preserved. -/
theorem c2_amended (corpus : List (List Char))
    (h : ∀ w ∈ corpus, w ≠ [] ∧ wsFree w) (n : Nat) (b : Pair) (v' : Vocab)
    (hstep : fitStep (vocabAfter n (initVocab corpus)) = some (b, v')) :
    v' = (vocabAfter n (initVocab corpus)).map
      (fun e => (pyReplace (bigram b) (b.1 ++ b.2) e.1, e.2)) :=
  (fitStep_good (corpusChars corpus) (vocabAfter n (initVocab corpus)) b v'
    (vocabAfter_good (corpusChars corpus) n (initVocab corpus)
      (initVocab_good corpus h)) hstep).2.1

theorem c2_amended_witness :
    (∀ w ∈ [['a', 'b']], w ≠ [] ∧ wsFree w)
    ∧ fitStep (vocabAfter 0 (initVocab [['a', 'b']]))
        = some ((['a'], ['b']), [(['a', 'b', ' ', '<', '/', 'w', '>'], 1)])
    ∧ [(['a', 'b', ' ', '<', '/', 'w', '>'], 1)]
        = (vocabAfter 0 (initVocab [['a', 'b']])).map
          (fun e => (pyReplace (bigram (['a'], ['b'])) (['a'] ++ ['b']) e.1, e.2)) :=
  ⟨by decide, by decide,
    c2_amended [['a', 'b']] (by decide) 0 (['a'], ['b'])
      [(['a', 'b', ' ', '<', '/', 'w', '>'], 1)] (by decide)⟩

/-! ### Unknown characters survive encoding as singleton tokens -/

theorem fitLoop_rules (cc : List Char) : ∀ (m : Nat) (v : Vocab) (ms : List Pair),
    GoodVocab cc v → (∀ p ∈ ms, RuleOK cc p) →
    ∀ p ∈ fitLoop m v ms, RuleOK cc p := by
  intro m
  induction m with
  | zero => intro v ms _ hms p hp; exact hms p hp
  | succ m ih =>
      intro v ms hgv hms p hp
      simp only [fitLoop] at hp
      cases hs : fitStep v with
      | none => rw [hs] at hp; exact hms p hp
      | some bv =>
          rw [hs] at hp
          obtain ⟨⟨h1, h2, -, -, h5, h6⟩, -, hgv', -⟩ :=
            fitStep_good cc v bv.1 bv.2 hgv (by rw [hs])
          refine ih bv.2 (ms ++ [bv.1]) hgv' ?_ p hp
          intro q hq
          rcases List.mem_append.mp hq with h | h
          · exact hms q h
          · rcases List.mem_singleton.mp h with rfl
            exact ⟨h1, h2, h5, h6⟩

theorem fitMerges_rules (m : Nat) (corpus : List (List Char))
    (h : ∀ w ∈ corpus, w ≠ [] ∧ wsFree w) :
    ∀ p ∈ fitMerges m corpus, RuleOK (corpusChars corpus) p :=
  fitLoop_rules (corpusChars corpus) m (initVocab corpus) []
    (initVocab_good corpus h) (by intro p hp; simp at hp)

theorem countOcc_append {α : Type} [DecidableEq α] (a : α) :
    ∀ l1 l2 : List α, countOcc (l1 ++ l2) a = countOcc l1 a + countOcc l2 a := by
  intro l1 l2
  induction l1 with
  | nil => simp [countOcc]
  | cons x l ih =>
      simp only [List.cons_append, countOcc, List.append_eq]
      rw [ih]
      omega

theorem countOcc_map_singleton (ch : Char) :
    ∀ w : List Char, countOcc (w.map (fun c => [c])) [ch] = countOcc w ch := by
  intro w
  induction w with
  | nil => rfl
  | cons c rest ih =>
      simp only [List.map_cons, countOcc, ih]
      by_cases hc : c = ch
      · subst hc; simp
      · rw [if_neg hc, if_neg (by simpa using hc)]

theorem applyMerge_countOcc (p : Pair) (s : Sym) (h1 : p.1 ≠ s) (h2 : p.2 ≠ s)
    (h3 : p.1 ++ p.2 ≠ s) : ∀ (n : Nat) (l : List Sym), l.length ≤ n →
    countOcc (applyMerge p l) s = countOcc l s := by
  intro n
  induction n with
  | zero =>
      intro l hl
      cases l with
      | nil => rfl
      | cons x xs => simp at hl
  | succ n ih =>
      intro l hl
      match l with
      | [] => rfl
      | [x] => rfl
      | a :: b :: rest =>
          simp only [applyMerge]
          split
          · rename_i hc
            obtain ⟨ha, hb⟩ := hc
            subst ha
            subst hb
            simp only [countOcc]
            rw [ih rest (by simp only [List.length_cons] at hl; omega),
              if_neg h3, if_neg h1, if_neg h2]
          · simp only [countOcc]
            rw [ih (b :: rest) (by simp only [List.length_cons] at hl ⊢; omega)]
            simp only [countOcc]

theorem encodeLoop_pres_mem (merges : List Pair) (P : List Sym → Prop)
    (hstep : ∀ p ∈ merges, ∀ l, P l → P (applyMerge p l)) :
    ∀ (fuel : Nat) (l : List Sym), P l → P (encodeLoop merges fuel l) := by
  intro fuel
  induction fuel with
  | zero => intro l hl; exact hl
  | succ n ih =>
      intro l hl
      simp only [encodeLoop]
      split
      · exact hl
      · split
        · exact hl
        · rename_i p hp
          exact ih _ (hstep p (List.mem_of_find?_eq_some hp) _ hl)

theorem encodeWordM_countOcc (merges : List Pair) (cc : List Char)
    (hrules : ∀ p ∈ merges, RuleOK cc p) (ch : Char) (hch : ch ∉ cc)
    (w : List Char) :
    countOcc (encodeWordM merges w) [ch] = countOcc w ch := by
  have hns : ([ch] : Sym) ≠ sentinel := by
    intro h
    exact absurd (congrArg List.length h) (by simp [sentinel])
  have hinit : countOcc (toSyms w) [ch] = countOcc w ch := by
    rw [toSyms, countOcc_append, countOcc_map_singleton]
    simp only [countOcc]
    rw [if_neg (fun h => hns h.symm)]
    omega
  have hrun : countOcc (runLoop merges (toSyms w)) [ch] = countOcc w ch := by
    rw [runLoop]
    refine encodeLoop_pres_mem merges (fun l => countOcc l [ch] = countOcc w ch)
      ?_ _ (toSyms w) hinit
    intro p hp l hl
    obtain ⟨hp1, hp2, hp3, hp4⟩ := hrules p hp
    have hne1 : p.1 ≠ [ch] := by
      intro h
      exact hch (hp3 (by rw [h]; rfl) ch (by rw [h]; exact List.mem_singleton_self _))
    have hne2 : p.2 ≠ [ch] := by
      intro h
      exact hch (hp4 (by rw [h]; rfl) ch (by rw [h]; exact List.mem_singleton_self _))
    have hne3 : p.1 ++ p.2 ≠ [ch] := by
      intro h
      have := congrArg List.length h
      simp only [List.length_append, List.length_singleton] at this
      have l1 : 1 ≤ p.1.length := List.length_pos.mpr hp1
      have l2 : 1 ≤ p.2.length := List.length_pos.mpr hp2
      omega
    rw [applyMerge_countOcc p [ch] hne1 hne2 hne3 l.length l (Nat.le_refl _), hl]
  rw [encodeWordM]
  split
  · rename_i hlast
    cases hr : runLoop merges (toSyms w) using List.reverseRecOn with
    | nil => rw [hr] at hlast; simp at hlast
    | append_singleton xs x =>
        rw [hr] at hlast hrun
        rw [List.getLast?_concat] at hlast
        simp only [Option.some.injEq] at hlast
        rw [List.dropLast_concat]
        rw [countOcc_append] at hrun
        simp only [countOcc] at hrun
        rw [hlast, if_neg (fun h => hns h.symm)] at hrun
        omega
  · exact hrun

/-- C7: on a corpus of nonempty whitespace-free words, `encode` (a total
function) returns one encoded word per whitespace-delimited input word, and
any character `ch` that never occurs in the corpus survives in each encoded
word as exactly as many singleton tokens `[ch]` as `ch` had occurrences in
that word — no learned rule can consume it. -/
theorem c7_unknown_chars (m : Nat) (corpus : List (List Char))
    (h : ∀ w ∈ corpus, w ≠ [] ∧ wsFree w) (ch : Char)
    (hch : ch ∉ corpusChars corpus) (t : List Char) :
    (encode (fit (mkBPE m) corpus) t).2
      = (pySplit t).map (encodeWordM (fitMerges m corpus))
    ∧ ∀ w ∈ pySplit t,
        countOcc (encodeWordM (fitMerges m corpus) w) [ch] = countOcc w ch := by
  refine ⟨rfl, fun w _ => ?_⟩
  exact encodeWordM_countOcc (fitMerges m corpus) (corpusChars corpus)
    (fitMerges_rules m corpus h) ch hch w

theorem c7_unknown_chars_witness :
    ((∀ w ∈ [['a', 'b']], w ≠ [] ∧ wsFree w) ∧ 'z' ∉ corpusChars [['a', 'b']])
    ∧ ((encode (fit (mkBPE 5) [['a', 'b']]) ['z', 'a', 'b']).2
        = (pySplit ['z', 'a', 'b']).map (encodeWordM (fitMerges 5 [['a', 'b']]))
      ∧ ∀ w ∈ pySplit ['z', 'a', 'b'],
          countOcc (encodeWordM (fitMerges 5 [['a', 'b']]) w) ['z']
            = countOcc w 'z') :=
  ⟨⟨by decide, by decide⟩,
    c7_unknown_chars 5 [['a', 'b']] (by decide) 'z' (by decide) ['z', 'a', 'b']⟩

end BPEModel
